import Mathlib

/-!
# Verification of the LiteLLM streaming response decoder

Shallow embedding of the streaming response decoder of the
`litellm-vscode-chat` provider (`src/types.ts`, class body lines 995-1418):
the SSE line framer, the delta dispatcher, the standard tool-call buffer,
the inline control-token tokenizer, the dedup ledgers and the per-stream
state lifecycle.  Strings are modelled as `List Char` where the source
scans character-wise; JS `Map`/`Set` become association lists (insertion
ordered, as `Map` iteration is) and `Finset`s.  The one piece of this
repository whose source is absent (`src/utils.ts`) is modelled from the
spec where indicated.
-/

/-- A JSON value as produced by `JSON.parse`.  Numbers keep their source
lexeme: no claim below inspects numeric magnitude, and this avoids
imposing float semantics on the model. -/
inductive Json where
  | null
  | boolean (b : Bool)
  | num (lexeme : String)
  | str (s : String)
  | arr (elems : List Json)
  | obj (fields : List (String × Json))
deriving Inhabited

/-- JSON whitespace accepted between tokens by `JSON.parse`. -/
def jsonWs (c : Char) : Bool :=
  c = ' ' || c = '\t' || c = '\n' || c = '\r'

/-- Drop leading JSON whitespace. -/
def dropWs : List Char → List Char
  | c :: cs => if jsonWs c then dropWs cs else c :: cs
  | [] => []

def digitChar (c : Char) : Bool := c.isDigit

/-- Value of one hex digit of a `\uXXXX` escape, by code point. -/
def hexDigitVal (c : Char) : Option Nat :=
  let n := c.toNat
  if 48 ≤ n && n ≤ 57 then some (n - 48)
  else if 97 ≤ n && n ≤ 102 then some (n - 87)
  else if 65 ≤ n && n ≤ 70 then some (n - 55)
  else none

/-- Body of a JSON string literal, after the opening quote.  Returns the
decoded characters and the input remaining after the closing quote.
Raw control characters are rejected, as strict `JSON.parse` does.
Surrogate escapes outside the valid `Char` range decode to NUL (model
choice; no claim exercises them). -/
def scanStringBody : List Char → List Char → Option (List Char × List Char)
  | acc, '"' :: rest => some (acc.reverse, rest)
  | acc, '\\' :: esc =>
    match esc with
    | '"' :: r => scanStringBody ('"' :: acc) r
    | '\\' :: r => scanStringBody ('\\' :: acc) r
    | '/' :: r => scanStringBody ('/' :: acc) r
    | 'b' :: r => scanStringBody (Char.ofNat 8 :: acc) r
    | 'f' :: r => scanStringBody (Char.ofNat 12 :: acc) r
    | 'n' :: r => scanStringBody ('\n' :: acc) r
    | 'r' :: r => scanStringBody ('\r' :: acc) r
    | 't' :: r => scanStringBody ('\t' :: acc) r
    | 'u' :: h1 :: h2 :: h3 :: h4 :: r =>
      match hexDigitVal h1, hexDigitVal h2, hexDigitVal h3, hexDigitVal h4 with
      | some a, some b, some c, some d =>
        scanStringBody (Char.ofNat (((a * 16 + b) * 16 + c) * 16 + d) :: acc) r
      | _, _, _, _ => none
    | _ => none
  | acc, c :: rest => if c.toNat < 32 then none else scanStringBody (c :: acc) rest
  | _, [] => none

def takeDigitRun : List Char → List Char × List Char
  | c :: cs =>
    if digitChar c then
      let p := takeDigitRun cs
      (c :: p.1, p.2)
    else ([], c :: cs)
  | [] => ([], [])

/-- The integer part of a JSON number: `0`, or a nonzero digit followed by
digits (leading zeros are a parse error for `JSON.parse`). -/
def scanIntPart : List Char → Option (List Char × List Char)
  | '0' :: cs => some (['0'], cs)
  | c :: cs =>
    if digitChar c && c ≠ '0' then
      let p := takeDigitRun cs
      some (c :: p.1, p.2)
    else none
  | [] => none

/-- The fraction and exponent tail of a JSON number lexeme. -/
def scanFracExp (l : List Char) : Option (List Char × List Char) :=
  let step1 : Option (List Char × List Char) :=
    match l with
    | '.' :: cs =>
      let p := takeDigitRun cs
      if p.1 = [] then none else some ('.' :: p.1, p.2)
    | _ => some ([], l)
  match step1 with
  | none => none
  | some (frac, rest) =>
    match rest with
    | e :: cs =>
      if e = 'e' || e = 'E' then
        match cs with
        | s :: cs2 =>
          if s = '+' || s = '-' then
            let p := takeDigitRun cs2
            if p.1 = [] then none else some (frac ++ [e, s] ++ p.1, p.2)
          else
            let p := takeDigitRun cs
            if p.1 = [] then none else some (frac ++ [e] ++ p.1, p.2)
        | [] => none
      else some (frac, rest)
    | [] => some (frac, rest)

/-- A whole JSON number lexeme (sign, integer part, fraction, exponent). -/
def scanNumber (l : List Char) : Option (List Char × List Char) :=
  match l with
  | '-' :: cs =>
    match scanIntPart cs with
    | some (ip, r1) =>
      match scanFracExp r1 with
      | some (fe, r2) => some ('-' :: ip ++ fe, r2)
      | none => none
    | none => none
  | _ =>
    match scanIntPart l with
    | some (ip, r1) =>
      match scanFracExp r1 with
      | some (fe, r2) => some (ip ++ fe, r2)
      | none => none
    | none => none

def expectLit : List Char → List Char → Option (List Char)
  | l, pat => if pat.isPrefixOf l then some (l.drop pat.length) else none

mutual
/-- Recursive-descent JSON value parser; `fuel` only bounds recursion and
is set by the wrapper to a value the grammar cannot exhaust (every
recursive step first consumes at least one character). -/
def scanValue : Nat → List Char → Option (Json × List Char)
  | 0, _ => none
  | fuel + 1, l =>
    match dropWs l with
    | 'n' :: r =>
      match expectLit ('n' :: r) "null".data with
      | some rest => some (Json.null, rest)
      | none => none
    | 't' :: r =>
      match expectLit ('t' :: r) "true".data with
      | some rest => some (Json.boolean true, rest)
      | none => none
    | 'f' :: r =>
      match expectLit ('f' :: r) "false".data with
      | some rest => some (Json.boolean false, rest)
      | none => none
    | '"' :: r =>
      match scanStringBody [] r with
      | some (cs, rest) => some (Json.str (String.mk cs), rest)
      | none => none
    | '[' :: r =>
      (match dropWs r with
       | ']' :: rest => some (Json.arr [], rest)
       | _ =>
         match scanElems fuel (dropWs r) with
         | some (es, rest) => some (Json.arr es, rest)
         | none => none)
    | '{' :: r =>
      (match dropWs r with
       | '}' :: rest => some (Json.obj [], rest)
       | _ =>
         match scanMembers fuel (dropWs r) with
         | some (ms, rest) => some (Json.obj ms, rest)
         | none => none)
    | l' =>
      match scanNumber l' with
      | some (lex, rest) => some (Json.num (String.mk lex), rest)
      | none => none

/-- Comma-separated array elements up to the closing bracket. -/
def scanElems : Nat → List Char → Option (List Json × List Char)
  | 0, _ => none
  | fuel + 1, l =>
    match scanValue fuel l with
    | some (v, r1) =>
      (match dropWs r1 with
       | ',' :: r2 =>
         match scanElems fuel r2 with
         | some (es, rest) => some (v :: es, rest)
         | none => none
       | ']' :: rest => some ([v], rest)
       | _ => none)
    | none => none

/-- Comma-separated `"key": value` members up to the closing brace. -/
def scanMembers : Nat → List Char → Option (List (String × Json) × List Char)
  | 0, _ => none
  | fuel + 1, l =>
    match dropWs l with
    | '"' :: r =>
      match scanStringBody [] r with
      | some (kcs, r1) =>
        (match dropWs r1 with
         | ':' :: r2 =>
           match scanValue fuel r2 with
           | some (v, r3) =>
             (match dropWs r3 with
              | ',' :: r4 =>
                match scanMembers fuel r4 with
                | some (ms, rest) => some ((String.mk kcs, v) :: ms, rest)
                | none => none
              | '}' :: rest => some ([(String.mk kcs, v)], rest)
              | _ => none)
           | none => none
         | _ => none)
      | none => none
    | _ => none
end

/-- The semantics of `JSON.parse` on a character list: a value surrounded
by optional whitespace and nothing else, or failure (modelling the thrown
`SyntaxError` as `none`). -/
def parseJSONChars (l : List Char) : Option Json :=
  match scanValue (l.length + 1) (dropWs l) with
  | some (v, rest) => if dropWs rest = [] then some v else none
  | none => none

/-- `JSON.parse` on a `String`. -/
def parseJSONStr (s : String) : Option Json :=
  parseJSONChars s.data

/-- `JSON.stringify` escaping of one string-literal character. -/
def stringifyChar (c : Char) : String :=
  if c = '"' then "\\\""
  else if c = '\\' then "\\\\"
  else if c = '\n' then "\\n"
  else if c = '\r' then "\\r"
  else if c = '\t' then "\\t"
  else if c.toNat = 8 then "\\b"
  else if c.toNat = 12 then "\\f"
  else if c.toNat < 32 then
    "\\u00" ++ String.mk [Nat.digitChar (c.toNat / 16), Nat.digitChar (c.toNat % 16)]
  else String.mk [c]

def quoteStr (s : String) : String :=
  "\"" ++ String.join (s.data.map stringifyChar) ++ "\""

mutual
/-- The canonical serialization used for dedup keys: `JSON.stringify` of
the parsed argument object (key order as parsed, deterministic). -/
def stringify : Json → String
  | Json.null => "null"
  | Json.boolean b => if b then "true" else "false"
  | Json.num lex => lex
  | Json.str s => quoteStr s
  | Json.arr es => "[" ++ stringifySeq es ++ "]"
  | Json.obj ms => "\x7b" ++ stringifyFields ms ++ "\x7d"

/-- Array elements rendered comma-separated. -/
def stringifySeq : List Json → String
  | [] => ""
  | [e] => stringify e
  | e :: es => stringify e ++ "," ++ stringifySeq es

/-- Object members rendered comma-separated. -/
def stringifyFields : List (String × Json) → String
  | [] => ""
  | [(k, v)] => quoteStr k ++ ":" ++ stringify v
  | (k, v) :: ms => quoteStr k ++ ":" ++ stringify v ++ "," ++ stringifyFields ms
end

/-- Modelled from the spec: `tryParseJSONObject` lives in `src/utils.ts`,
which is absent from this snapshot (only its test file and its callers
are present).  Spec 4.3: `tryParseObject(text) -> {ok:true, value} |
{ok:false}` accepts exactly the inputs `JSON.parse` turns into a
top-level object; arrays and scalars are rejected even when
syntactically valid; never throws (here: totality).  `some fields`
plays `{ok:true, value}`. -/
def tryParseJSONObject (s : String) : Option (List (String × Json)) :=
  match parseJSONStr s with
  | some (Json.obj fields) => some fields
  | _ => none

/-- `tryParseJSONObject` applied to the tokenizer's character buffers. -/
def tryParseJSONObjectChars (l : List Char) : Option (List (String × Json)) :=
  match parseJSONChars l with
  | some (Json.obj fields) => some fields
  | _ => none

/-- Field lookup on a parsed JSON object (`undefined` becomes `none`).
`JSON.parse` keeps the last duplicate key, hence the reversed search. -/
def jGet (j : Json) (k : String) : Option Json :=
  match j with
  | Json.obj fields => (fields.reverse.find? (fun kv => kv.1 = k)).map (fun kv => kv.2)
  | _ => none

/-- Does a JSON number lexeme denote zero (all mantissa digits `0`)? -/
def numLexIsZero (lex : String) : Bool :=
  (lex.data.takeWhile (fun c => c ≠ 'e' ∧ c ≠ 'E')).all (fun c => ¬ digitChar c || c = '0')

/-- JS truthiness of a parsed JSON value. -/
def jsTruthy : Json → Bool
  | Json.null => false
  | Json.boolean b => b
  | Json.num lex => ¬ numLexIsZero lex
  | Json.str s => s ≠ ""
  | Json.arr _ => true
  | Json.obj _ => true

mutual
/-- JS `String(x)` on a parsed JSON value.  Number lexemes are kept
verbatim (JS would re-format the float; the difference is invisible to
every claim below). -/
def jsToString : Json → String
  | Json.null => "null"
  | Json.boolean b => if b then "true" else "false"
  | Json.num lex => lex
  | Json.str s => s
  | Json.arr es => jsToStringSeq es
  | Json.obj _ => "[object Object]"

/-- `Array.prototype.toString`: elements `String`-converted and joined
with commas, `null` rendering as the empty string. -/
def jsToStringSeq : List Json → String
  | [] => ""
  | [Json.null] => ""
  | [e] => jsToString e
  | Json.null :: es => "," ++ jsToStringSeq es
  | e :: es => jsToString e ++ "," ++ jsToStringSeq es
end

/-- A response part reported to the progress sink.  A tool call's `id` is
the buffered server id when present; `none` stands for the randomly
generated fallback id (`call_…` / `tct_…`), whose text no claim inspects. -/
inductive ResponsePart where
  | text (s : String)
  | thinking (s : String) (id : Option String) (metadata : Option Json)
  | toolCall (id : Option String) (name : String) (args : Json)

def isToolCallPart : ResponsePart → Bool
  | ResponsePart.toolCall _ _ _ => true
  | _ => false

def toolCallCount (parts : List ResponsePart) : Nat :=
  parts.countP isToolCallPart

/-- Concatenation of the visible text carried by a part list. -/
def textConcat : List ResponsePart → String
  | [] => ""
  | ResponsePart.text s :: rest => s ++ textConcat rest
  | _ :: rest => textConcat rest

/-- One entry of `_toolCallBuffers`. -/
structure ToolCallBuffer where
  id : Option String := none
  name : Option String := none
  args : String := ""
deriving DecidableEq

/-- The in-progress inline (text-embedded) tool call, `_textToolActive`. -/
structure ActiveTextToolCall where
  name : Option String
  index : Option Nat
  argBuffer : List Char
  emitted : Bool
deriving DecidableEq

/-- The per-stream mutable provider state (the `_…` instance fields that
the decoder reads and writes). -/
structure ProviderState where
  toolCallBuffers : List (Nat × ToolCallBuffer)
  completedToolCallIndices : Finset Nat
  hasEmittedAssistantText : Bool
  emittedBeginToolCallsHint : Bool
  textToolParserBuffer : List Char
  textToolActive : Option ActiveTextToolCall
  emittedTextToolCallKeys : Finset String
  emittedTextToolCallIds : Finset String
deriving DecidableEq

/-- The fields' initial values (also what the entry-point reset restores). -/
def initState : ProviderState where
  toolCallBuffers := []
  completedToolCallIndices := ∅
  hasEmittedAssistantText := false
  emittedBeginToolCallsHint := false
  textToolParserBuffer := []
  textToolActive := none
  emittedTextToolCallKeys := ∅
  emittedTextToolCallIds := ∅

/-- `Map.get`: the value stored under a key (first hit; real states keep
keys unique). -/
def lookupBuf : List (Nat × ToolCallBuffer) → Nat → Option ToolCallBuffer
  | [], _ => none
  | p :: rest, i => if p.1 = i then some p.2 else lookupBuf rest i

/-- `Map.set`: replace in place when the key exists (JS `Map` keeps the
original insertion position), else append at the end. -/
def setBuf (l : List (Nat × ToolCallBuffer)) (i : Nat) (b : ToolCallBuffer) :
    List (Nat × ToolCallBuffer) :=
  if l.any (fun p => p.1 = i) then
    l.map (fun p => if p.1 = i then (i, b) else p)
  else l ++ [(i, b)]

/-- `Map.delete`. -/
def eraseBuf (l : List (Nat × ToolCallBuffer)) (i : Nat) : List (Nat × ToolCallBuffer) :=
  l.filter (fun p => p.1 ≠ i)

/-- `tryEmitBufferedToolCall` (source lines 1341-1367): emit the buffered
call at `index` once it has a truthy name and JSON-object arguments;
then drop the buffer entry and mark the index completed.  JS truthiness
makes an empty-string name fail the `!buf.name` guard exactly like a
missing one. -/
def tryEmitBufferedToolCall (index : Nat) (st : ProviderState) :
    ProviderState × Option ResponsePart :=
  match lookupBuf st.toolCallBuffers index with
  | none => (st, none)
  | some buf =>
    match buf.name with
    | none => (st, none)
    | some nm =>
      if nm = "" then (st, none)
      else
        match tryParseJSONObject buf.args with
        | none => (st, none)
        | some fields =>
          let parameters := Json.obj fields
          ({ st with
              emittedTextToolCallKeys :=
                insert (nm ++ ":" ++ stringify parameters) st.emittedTextToolCallKeys
              toolCallBuffers := eraseBuf st.toolCallBuffers index
              completedToolCallIndices := insert index st.completedToolCallIndices },
           some (ResponsePart.toolCall buf.id nm parameters))

/-- The walk of `flushToolCallBuffers` over the entry snapshot
(`Array.from(this._toolCallBuffers.entries())`).  The third component
models the thrown `Error`: `some msg` when the walk aborted by throwing,
with the parts already reported and the state mutations already applied
kept alongside, as a thrown JS exception would leave them. -/
def flushWalk (entries : List (Nat × ToolCallBuffer)) (throwOnInvalid : Bool)
    (st : ProviderState) (acc : List ResponsePart) :
    ProviderState × List ResponsePart × Option String :=
  match entries with
  | [] => (st, acc, none)
  | (idx, buf) :: rest =>
    match tryParseJSONObject buf.args with
    | none =>
      if throwOnInvalid then (st, acc, some "Invalid JSON for tool call")
      else flushWalk rest throwOnInvalid st acc
    | some fields =>
      let parameters := Json.obj fields
      let name := buf.name.getD "unknown_tool"
      let st' := { st with
        emittedTextToolCallKeys :=
          insert (name ++ ":" ++ stringify parameters) st.emittedTextToolCallKeys
        toolCallBuffers := eraseBuf st.toolCallBuffers idx
        completedToolCallIndices := insert idx st.completedToolCallIndices }
      flushWalk rest throwOnInvalid st' (acc ++ [ResponsePart.toolCall buf.id name parameters])

/-- `flushToolCallBuffers` (source lines 1374-1406): walk every buffered
entry; emit those whose accumulated arguments parse as a JSON object
(name falling back to `"unknown_tool"` under `??`, so only a missing
name falls back); on a non-parseable entry either throw
(`throwOnInvalid`, the turn-completion variant) or skip it silently
(the `[DONE]` variant, which also leaves the entry in the map). -/
def flushToolCallBuffers (throwOnInvalid : Bool) (st : ProviderState) :
    ProviderState × List ResponsePart × Option String :=
  if st.toolCallBuffers = [] then (st, [], none)
  else flushWalk st.toolCallBuffers throwOnInvalid st []

/-- One streamed standard-format tool-call fragment, the decoded fields
of one element of `delta.tool_calls` (its nested `function` object
flattened).  Fields the wire did not carry (or carried with a non-string
type where a string is probed for) are `none`. -/
structure ToolCallFragment where
  index : Option Nat := none
  id : Option String := none
  fname : Option String := none
  fargs : Option String := none

/-- The merge step of the fragment loop (source lines 1130-1140):
overwrite `id`/`name` when the fragment carries a truthy string for
them, append an `arguments` string fragment (never replace). -/
def mergeFragment (buf0 : ToolCallBuffer) (tc : ToolCallFragment) : ToolCallBuffer :=
  let buf1 := match tc.id with
    | some s => if s ≠ "" then { buf0 with id := some s } else buf0
    | none => buf0
  let buf2 := match tc.fname with
    | some s => if s ≠ "" then { buf1 with name := some s } else buf1
    | none => buf1
  match tc.fargs with
  | some s => { buf2 with args := buf2.args ++ s }
  | none => buf2

/-- The body of the fragment loop in `processDelta` (source lines
1124-1145): default a missing index to `0`, drop fragments for completed
indices, merge the fragment into the fetched-or-created buffer, store it
back, then attempt early emission. -/
def processToolCallFragment (st : ProviderState) (tc : ToolCallFragment) :
    ProviderState × List ResponsePart :=
  let idx := tc.index.getD 0
  if idx ∈ st.completedToolCallIndices then (st, [])
  else
    let buf3 := mergeFragment ((lookupBuf st.toolCallBuffers idx).getD {}) tc
    let st1 := { st with toolCallBuffers := setBuf st.toolCallBuffers idx buf3 }
    let r := tryEmitBufferedToolCall idx st1
    (r.1, r.2.toList)

/-- A sequence of standard-format fragments processed in order, with the
reported parts concatenated — the fragment traffic of one stream. -/
def runFragments (st : ProviderState) : List ToolCallFragment → ProviderState × List ResponsePart
  | [] => (st, [])
  | tc :: rest =>
    let r := processToolCallFragment st tc
    let r' := runFragments r.1 rest
    (r'.1, r.2 ++ r'.2)

/-- The call-begin sentinel `<|tool_call_begin|>`. -/
def beginTok : List Char := "<|tool_call_begin|>".data

/-- The arguments-begin sentinel `<|tool_call_argument_begin|>`. -/
def argBeginTok : List Char := "<|tool_call_argument_begin|>".data

/-- The call-end sentinel `<|tool_call_end|>`. -/
def endTok : List Char := "<|tool_call_end|>".data

/-- `String.prototype.indexOf` for a substring: position of the first
occurrence, `none` for `-1`. -/
def indexOfSub : List Char → List Char → Nat → Option Nat
  | l, pat, i =>
    if pat.isPrefixOf l then some i
    else
      match l with
      | [] => none
      | _ :: t => indexOfSub t pat (i + 1)

def indexOf (l pat : List Char) : Option Nat := indexOfSub l pat 0

/-- The inner countdown of the `longestPartialPrefix` closure (source
lines 1178-1185): the largest `k` in `min(BEGIN.length-1, data.length-1) … 1`
with `data.endsWith(BEGIN.slice(0, k))`, else `0`. -/
def carrySuffixScan : Nat → List Char → Nat
  | 0, _ => 0
  | k + 1, data =>
    if (beginTok.take (k + 1)).isSuffixOf data then k + 1
    else carrySuffixScan k data

/-- `longestPartialPrefix`: length of the longest proper prefix of the
begin sentinel that the data ends with. -/
def carrySuffixLen (data : List Char) : Nat :=
  carrySuffixScan (min (beginTok.length - 1) (data.length - 1)) data

/-- Character class of the section-marker regex `[a-zA-Z0-9_-]`. -/
def sectionNameChar (c : Char) : Bool :=
  c.isAlpha || c.isDigit || c = '_' || c = '-'

/-- Strip a literal suffix. -/
def stripSuffix (l suf : List Char) : Option (List Char) :=
  if suf.isSuffixOf l then some (l.take (l.length - suf.length)) else none

/-- Does `t` match `<\|[a-zA-Z0-9_-]+_section_(?:begin|end)\|>` exactly? -/
def isSectionToken (t : List Char) : Bool :=
  match t with
  | '<' :: '|' :: rest =>
    (match stripSuffix rest ['|', '>'] with
     | some core =>
       (match stripSuffix core "_section_begin".data with
        | some w => w ≠ [] && w.all sectionNameChar
        | none =>
          match stripSuffix core "_section_end".data with
          | some w => w ≠ [] && w.all sectionNameChar
          | none => false)
     | none => false)
  | _ => false

/-- The greedy (longest) section-marker match starting at the head of
`l`, as the regex engine's greedy `+` finds it. -/
def sectionMatchAt (l : List Char) : Option Nat :=
  (List.range (l.length + 1)).reverse.find? (fun n => isSectionToken (l.take n))

/-- One global-replace pass deleting section markers, scanning left to
right; `fuel` is supplied by the caller as `length + 1`, which a scan
that always consumes at least one character cannot exhaust. -/
def stripSectionPass : Nat → List Char → List Char
  | 0, l => l
  | _ + 1, [] => []
  | fuel + 1, c :: t =>
    match sectionMatchAt (c :: t) with
    | some n => stripSectionPass fuel ((c :: t).drop n)
    | none => c :: stripSectionPass fuel t

/-- The length of the call-marker token starting at the head of `l`, per
`<\|tool_call_(?:argument_)?(?:begin|end)\|>`. -/
def callTokenAt (l : List Char) : Option Nat :=
  if argBeginTok.isPrefixOf l then some argBeginTok.length
  else if ("<|tool_call_argument_end|>".data).isPrefixOf l then some 26
  else if beginTok.isPrefixOf l then some beginTok.length
  else if endTok.isPrefixOf l then some endTok.length
  else none

/-- One global-replace pass deleting the explicit call markers. -/
def stripCallPass : Nat → List Char → List Char
  | 0, l => l
  | _ + 1, [] => []
  | fuel + 1, c :: t =>
    match callTokenAt (c :: t) with
    | some n => stripCallPass fuel ((c :: t).drop n)
    | none => c :: stripCallPass fuel t

/-- `stripControlTokens` (source lines 1409-1418): the two sequential
regex replaces — first the `…_section_(begin|end)` markers, then the
explicit tool-call markers. -/
def stripControlTokens (l : List Char) : List Char :=
  let pass1 := stripSectionPass (l.length + 1) l
  stripCallPass (pass1.length + 1) pass1

/-- Whitespace removed by `String.prototype.trim`. -/
def trimWsChar (c : Char) : Bool :=
  c = ' ' || c = '\t' || c = '\n' || c = '\r' || c.toNat = 11 || c.toNat = 12

def trimChars (l : List Char) : List Char :=
  ((l.dropWhile trimWsChar).reverse.dropWhile trimWsChar).reverse

/-- Character class of the header regex `[A-Za-z0-9_\-.]`. -/
def headerNameChar (c : Char) : Bool :=
  c.isAlpha || c.isDigit || c = '_' || c = '-' || c = '.'

def digitsToNat (ds : List Char) : Nat :=
  ds.foldl (fun n c => n * 10 + (c.toNat - '0'.toNat)) 0

/-- `header.match(/^([A-Za-z0-9_\-.]+)(?::(\d+))?/)` followed by the
source's truthiness reads of the two capture groups: the leading name
run (no match at all when it is empty) and an optional `:digits` index
right after it; trailing junk is ignored, as the unanchored regex does. -/
def parseCallHeader (header : List Char) : Option String × Option Nat :=
  let nameRun := header.takeWhile headerNameChar
  if nameRun = [] then (none, none)
  else
    let rest := header.dropWhile headerNameChar
    let index :=
      match rest with
      | ':' :: ds =>
        let digits := ds.takeWhile digitChar
        if digits = [] then none else some (digitsToNat digits)
      | _ => none
    (some (String.mk nameRun), index)

/-- `emitTextToolCallIfValid` (source lines 1293-1320): parse the given
argument text; on success dedup — by `name:index` identity when an index
is present, by `name:canonicalJSON` content otherwise — and report the
tool call with a generated id. -/
def emitTextToolCallIfValid (st : ProviderState) (call : ActiveTextToolCall)
    (argText : List Char) : ProviderState × Option ResponsePart :=
  let name := call.name.getD "unknown_tool"
  match tryParseJSONObjectChars argText with
  | none => (st, none)
  | some fields =>
    let parsedValue := Json.obj fields
    let canonical := stringify parsedValue
    let key := name ++ ":" ++ canonical
    match call.index with
    | some i =>
      let idKey := name ++ ":" ++ toString i
      if idKey ∈ st.emittedTextToolCallIds then (st, none)
      else
        ({ st with
            emittedTextToolCallIds := insert idKey st.emittedTextToolCallIds
            emittedTextToolCallKeys := insert key st.emittedTextToolCallKeys },
         some (ResponsePart.toolCall none name parsedValue))
    | none =>
      if key ∈ st.emittedTextToolCallKeys then (st, none)
      else
        ({ st with emittedTextToolCallKeys := insert key st.emittedTextToolCallKeys },
         some (ResponsePart.toolCall none name parsedValue))

/-- What one run of the `while` loop of `processTextContent` leaves
behind: the mutated state, the accumulated `visibleOut`, the tool-call
parts reported during the loop, and the final value of `data`. -/
structure LoopOut where
  st : ProviderState
  vis : List Char
  parts : List ResponsePart
  residual : List Char

/-- The `while (data.length > 0)` loop of `processTextContent` (source
lines 1173-1277), ported branch by branch; `fuel` is supplied as
`data.length + 1`, which the loop cannot exhaust since every iteration
either terminates or strictly shortens `data`.  Note that every exit
path of the source loop has just set `data = ""`, so `residual` — which
the epilogue stores into `_textToolParserBuffer` — is empty whenever the
fuel suffices; the two in-loop carry assignments are therefore
immediately overwritten (see the carry lemmas below). -/
def textLoop : Nat → ProviderState → List Char → List Char → List ResponsePart → LoopOut
  | 0, st, data, vis, parts => ⟨st, vis, parts, data⟩
  | fuel + 1, st, data, vis, parts =>
    if data = [] then ⟨st, vis, parts, data⟩
    else
      match st.textToolActive with
      | none =>
        (match indexOf data beginTok with
         | none =>
           let k := carrySuffixLen data
           if k > 0 then
             let visible := data.take (data.length - k)
             let vis' := if visible ≠ [] then vis ++ stripControlTokens visible else vis
             ⟨{ st with textToolParserBuffer := data.drop (data.length - k) }, vis', parts, []⟩
           else
             ⟨st, vis ++ stripControlTokens data, parts, []⟩
         | some b =>
           let pre := data.take b
           let vis' := if pre ≠ [] then vis ++ stripControlTokens pre else vis
           let data1 := data.drop (b + beginTok.length)
           let a? := indexOf data1 argBeginTok
           let e? := indexOf data1 endTok
           -- `if (a !== -1 && (e === -1 || a < e))` selects the argument
           -- delimiter; `else if (e !== -1)` the end marker; else the
           -- incomplete-header break.
           let argDelim : Option Nat :=
             match a?, e? with
             | some a, some e => if a < e then some a else none
             | some a, none => some a
             | none, _ => none
           (match argDelim with
            | some a =>
              let header := parseCallHeader (trimChars (data1.take a))
              let call : ActiveTextToolCall := ⟨header.1, header.2, [], false⟩
              textLoop fuel { st with textToolActive := some call }
                (data1.drop (a + argBeginTok.length)) vis' parts
            | none =>
              (match e? with
               | some e =>
                 let header := parseCallHeader (trimChars (data1.take e))
                 let call : ActiveTextToolCall := ⟨header.1, header.2, [], false⟩
                 let st1 := { st with textToolActive := some call }
                 let data2 := data1.drop (e + endTok.length)
                 let r := emitTextToolCallIfValid st1 call "\x7b\x7d".data
                 (match r.2 with
                  | some p =>
                    textLoop fuel { r.1 with textToolActive := none } data2 vis' (parts ++ [p])
                  | none =>
                    textLoop fuel { r.1 with textToolActive := none } data2 vis' parts)
               | none =>
                 ⟨{ st with textToolParserBuffer := beginTok ++ data1 }, vis', parts, []⟩)))
      | some call =>
        (match indexOf data endTok with
         | none =>
           let call1 := { call with argBuffer := call.argBuffer ++ data }
           let st1 := { st with textToolActive := some call1 }
           if call1.emitted then ⟨st1, vis, parts, []⟩
           else
             let r := emitTextToolCallIfValid st1 call1 call1.argBuffer
             (match r.2 with
              | some p =>
                ⟨{ r.1 with textToolActive := some { call1 with emitted := true } }, vis,
                  parts ++ [p], []⟩
              | none => ⟨{ r.1 with textToolActive := some call1 }, vis, parts, []⟩)
         | some e2 =>
           let call1 := { call with argBuffer := call.argBuffer ++ data.take e2 }
           let st1 := { st with textToolActive := some call1 }
           let data2 := data.drop (e2 + endTok.length)
           if call1.emitted then
             textLoop fuel { st1 with textToolActive := none } data2 vis parts
           else
             let r := emitTextToolCallIfValid st1 call1 call1.argBuffer
             (match r.2 with
              | some p =>
                textLoop fuel { r.1 with textToolActive := none } data2 vis (parts ++ [p])
              | none => textLoop fuel { r.1 with textToolActive := none } data2 vis parts))

/-- The result record of `processTextContent`: the mutated state, the
parts reported in order, and the source's `{ emittedText, emittedAny }`
return value. -/
structure TextContentResult where
  st : ProviderState
  parts : List ResponsePart
  emittedText : Bool
  emittedAny : Bool

/-- `processTextContent` (source lines 1160-1291): prepend the carried
buffer, run the loop, report the accumulated visible text (if any) as a
single text part after the loop's tool-call parts, and store the
loop-final `data` — always empty — into `_textToolParserBuffer`,
overwriting anything a break branch put there. -/
def processTextContent (st : ProviderState) (input : List Char) : TextContentResult :=
  let data := st.textToolParserBuffer ++ input
  let r := textLoop (data.length + 1) st data [] []
  let emittedText : Bool := r.vis != []
  let parts := if r.vis = [] then r.parts else r.parts ++ [ResponsePart.text (String.mk r.vis)]
  { st := { r.st with textToolParserBuffer := r.residual }
    parts := parts
    emittedText := emittedText
    emittedAny := emittedText || !r.parts.isEmpty }

/-- `flushActiveTextToolCall` (source lines 1322-1334): at `[DONE]`, if
an inline call is still open and its buffer parses, emit it through the
dedup guard and close it; when the buffer does not parse, return with
the call left open. -/
def flushActiveTextToolCall (st : ProviderState) : ProviderState × Option ResponsePart :=
  match st.textToolActive with
  | none => (st, none)
  | some call =>
    match tryParseJSONObjectChars call.argBuffer with
    | none => (st, none)
    | some _ =>
      let r := emitTextToolCallIfValid st call call.argBuffer
      ({ r.1 with textToolActive := none }, r.2)

/-- String probe `typeof x === "string"` on an optional JSON field. -/
def asStr : Option Json → Option String
  | some (Json.str s) => some s
  | _ => none

/-- The `index` field of a wire fragment, when it is a plain decimal
integer (the only shape servers send; other shapes are out of scope of
every claim and modelled as absent, which `?? 0` also defaults). -/
def asNatIndex : Option Json → Option Nat
  | some (Json.num lex) =>
    if lex.data ≠ [] && lex.data.all digitChar then some (digitsToNat lex.data) else none
  | _ => none

/-- Decode one element of `delta.tool_calls` into the fields the fragment
loop probes: `tc.index`, truthy-string `tc.id`, truthy-string
`tc.function?.name`, string `tc.function?.arguments`.  The truthiness
guards themselves stay in `processToolCallFragment`, mirroring the
source's placement. -/
def decodeFragment (tc : Json) : ToolCallFragment :=
  let func := jGet tc "function"
  { index := asNatIndex (jGet tc "index")
    id := asStr (jGet tc "id")
    fname := asStr (func.bind (fun f => jGet f "name"))
    fargs := asStr (func.bind (fun f => jGet f "arguments")) }

/-- `choice?.thinking ?? deltaObj?.thinking`: nullish coalescing falls
through both on `undefined` and on JSON `null`. -/
def pickThinking (choice : Json) (deltaObj : Option Json) : Option Json :=
  match jGet choice "thinking" with
  | some Json.null => deltaObj.bind (fun d => jGet d "thinking")
  | some j => some j
  | none => deltaObj.bind (fun d => jGet d "thinking")

/-- The thinking extraction of `processDelta` (source lines 1067-1102),
assuming a host with `LanguageModelThinkingPart` (the missing-ctor branch no claim
depends on): an object contributes its string `text`/`id`/`metadata`
fields, a plain string is the text itself, anything else yields empty
text; only non-empty text is reported. -/
def thinkingPart (choice : Json) (deltaObj : Option Json) : Option ResponsePart :=
  match pickThinking choice deltaObj with
  | none => none
  | some mt =>
    let text :=
      match mt with
      | Json.str s => s
      | Json.obj _ => (asStr (jGet mt "text")).getD ""
      | _ => ""
    if text = "" then none
    else
      match mt with
      | Json.obj _ =>
        some (ResponsePart.thinking text (asStr (jGet mt "id")) (jGet mt "metadata"))
      | _ => some (ResponsePart.thinking text none none)

/-- The result of `processDelta`: mutated state, parts reported in
order, the source's boolean return, and — when the turn-completion flush
threw — the error, with everything reported and mutated before the throw
retained (a JS exception does not roll back). -/
structure DeltaResult where
  st : ProviderState
  parts : List ResponsePart
  emitted : Bool
  err : Option String

/-- The fragment loop of `processDelta` over the decoded `tool_calls`
array. -/
def fragmentLoop (st : ProviderState) : List Json → ProviderState × List ResponsePart
  | [] => (st, [])
  | tc :: rest =>
    let r := processToolCallFragment st (decodeFragment tc)
    let r' := fragmentLoop r.1 rest
    (r'.1, r.2 ++ r'.2)

/-- `processDelta` (source lines 1054-1154): take the first choice;
report thinking; run text content through the inline tokenizer, noting
whether visible text was emitted; before the first standard fragments
after visible text, report the single-space flush hint once; merge each
fragment and attempt early emission; finally, on a finish reason of
`"tool_calls"` or `"stop"`, run the throwing flush.  Non-array truthy
`tool_calls` values (which would make the JS `for…of` throw a TypeError
that the caller swallows) are out of every claim's scope and modelled as
absent. -/
def processDelta (st : ProviderState) (parsed : Json) : DeltaResult :=
  match jGet parsed "choices" with
  | some (Json.arr (choice :: _)) =>
    let deltaObj := jGet choice "delta"
    let thinkR : List ResponsePart × Bool :=
      match thinkingPart choice deltaObj with
      | some p => ([p], true)
      | none => ([], false)
    let contentR : ProviderState × List ResponsePart × Bool :=
      match deltaObj.bind (fun d => jGet d "content") with
      | some c =>
        if jsTruthy c then
          let res := processTextContent st (jsToString c).data
          let st1 := if res.emittedText then
            { res.st with hasEmittedAssistantText := true } else res.st
          (st1, res.parts, res.emittedAny)
        else (st, [], false)
      | none => (st, [], false)
    let st1 := contentR.1
    let toolsR : ProviderState × List ResponsePart :=
      match deltaObj.bind (fun d => jGet d "tool_calls") with
      | some (Json.arr tcs) =>
        let hint : List ResponsePart :=
          if ¬ st1.emittedBeginToolCallsHint ∧ st1.hasEmittedAssistantText ∧ tcs.length > 0
          then [ResponsePart.text " "] else []
        let st2 := if ¬ st1.emittedBeginToolCallsHint ∧ st1.hasEmittedAssistantText ∧
            tcs.length > 0 then { st1 with emittedBeginToolCallsHint := true } else st1
        let r := fragmentLoop st2 tcs
        (r.1, hint ++ r.2)
      | _ => (st1, [])
    let st2 := toolsR.1
    let finishR : ProviderState × List ResponsePart × Option String :=
      match jGet choice "finish_reason" with
      | some (Json.str f) =>
        if f = "tool_calls" ∨ f = "stop" then flushToolCallBuffers true st2
        else (st2, [], none)
      | _ => (st2, [], none)
    { st := finishR.1
      parts := thinkR.1 ++ contentR.2.1 ++ toolsR.2 ++ finishR.2.1
      emitted := thinkR.2 || contentR.2.2 || !toolsR.2.isEmpty || !finishR.2.1.isEmpty
      err := finishR.2.2 }
  | _ => { st := st, parts := [], emitted := false, err := none }

/-- One SSE line (source lines 1015-1034): non-`data: ` lines are
skipped; `[DONE]` runs the non-throwing buffer flush and the inline-call
flush; other payloads go through `JSON.parse` — a parse failure, or an
error thrown by `processDelta` (including the turn-completion flush
error), is swallowed by the surrounding `catch`, keeping whatever had
been reported and mutated up to the throw. -/
def processLine (st : ProviderState) (line : List Char) : ProviderState × List ResponsePart :=
  if ¬ ("data: ".data).isPrefixOf line then (st, [])
  else
    let payload := line.drop 6
    if payload = "[DONE]".data then
      let r1 := flushToolCallBuffers false st
      let r2 := flushActiveTextToolCall r1.1
      (r2.1, r1.2.1 ++ r2.2.toList)
    else
      match parseJSONChars payload with
      | none => (st, [])
      | some parsed =>
        let r := processDelta st parsed
        (r.st, r.parts)

/-- Fold of `processLine` over the complete lines of one read chunk. -/
def processLines (st : ProviderState) : List (List Char) → ProviderState × List ResponsePart
  | [] => (st, [])
  | l :: rest =>
    let r := processLine st l
    let r' := processLines r.1 rest
    (r'.1, r.2 ++ r'.2)

/-- The line framer (source lines 1011-1013): split on `"\n"`, all
pieces but the last are complete lines, the last is re-buffered. -/
def frame : List Char → List (List Char) × List Char
  | [] => ([], [])
  | c :: rest =>
    let r := frame rest
    if c = '\n' then ([] :: r.1, r.2)
    else
      match r.1 with
      | [] => ([], c :: r.2)
      | l :: ls => ((c :: l) :: ls, r.2)

/-- One iteration of the read loop: append the decoded chunk to the line
buffer, frame it, process the complete lines, keep the leftover. -/
def processChunk (lineBuf : List Char) (st : ProviderState) (chunk : List Char) :
    List Char × ProviderState × List ResponsePart :=
  let f := frame (lineBuf ++ chunk)
  let r := processLines st f.1
  (f.2, r.1, r.2)

/-- The read loop over a chunk sequence.  Cancellation stops the loop
between reads, so a cancelled stream is the same fold over a prefix of
the chunks. -/
def processChunks (lineBuf : List Char) (st : ProviderState) :
    List (List Char) → List Char × ProviderState × List ResponsePart
  | [] => (lineBuf, st, [])
  | chunk :: rest =>
    let r := processChunk lineBuf st chunk
    let r' := processChunks r.1 r.2.1 rest
    (r'.1, r'.2.1, r.2.2 ++ r'.2.2)

/-- The `finally` block of `processStreamingResponse` (source lines
1036-1046): it clears the tool-call buffers, the completed-index set,
both text flags, the parser carry, the active inline call, and the
content-key dedup ledger — and does not touch `_emittedTextToolCallIds`. -/
def finalizeStreamState (st : ProviderState) : ProviderState :=
  { toolCallBuffers := []
    completedToolCallIndices := ∅
    hasEmittedAssistantText := false
    emittedBeginToolCallsHint := false
    textToolParserBuffer := []
    textToolActive := none
    emittedTextToolCallKeys := ∅
    emittedTextToolCallIds := st.emittedTextToolCallIds }

/-- The reset at the top of `provideLanguageModelChatResponse` (source
lines 757-764), which clears all eight fields, the identity-key ledger
included. -/
def resetPerRequestState (_st : ProviderState) : ProviderState := initState

/-- `processStreamingResponse` (source lines 995-1047) over the decoded
chunk sequence: the read loop — whose body never lets an exception
escape (delta errors are swallowed per line, `[DONE]` flushes are
non-throwing, the progress sink is wrapped) — followed unconditionally
by the `finally` cleanup. -/
def processStreamingResponse (st : ProviderState) (chunks : List (List Char)) :
    ProviderState × List ResponsePart :=
  let r := processChunks [] st chunks
  (finalizeStreamState r.2.1, r.2.2)

/-! ## Carry-buffer facts -/

/-- Every exit of the tokenizer loop leaves `data` empty, so the value
stored into the carry afterwards is empty whenever the fuel suffices. -/
theorem textLoop_residual (fuel : Nat) :
    ∀ st data vis parts, data.length < fuel →
      (textLoop fuel st data vis parts).residual = [] := by
  induction fuel with
  | zero => intro st data vis parts h; exact absurd h (Nat.not_lt_zero _)
  | succ n ih =>
    intro st data vis parts h
    by_cases hd : data = []
    · simp [textLoop, hd]
    · have hlen : 0 < data.length := List.length_pos.mpr hd
      simp only [textLoop, if_neg hd]
      split
      · -- textToolActive = none
        split
        · -- no begin marker
          split <;> rfl
        · -- begin marker found
          rename_i b hb
          split
          · -- argument delimiter selected
            apply ih
            simp only [List.length_drop]
            have : (0 : Nat) < beginTok.length := by decide
            omega
          · -- no argument delimiter
            split
            · -- end marker: no-args call
              split
              · apply ih
                simp only [List.length_drop]
                have : (0 : Nat) < beginTok.length := by decide
                omega
              · apply ih
                simp only [List.length_drop]
                have : (0 : Nat) < beginTok.length := by decide
                omega
            · -- incomplete header
              rfl
      · -- active call
        split
        · -- no end marker: accumulate and break
          split
          · rfl
          · split <;> rfl
        · -- end marker found
          rename_i e2 he2
          split
          · apply ih
            simp only [List.length_drop]
            have : (0 : Nat) < endTok.length := by decide
            omega
          · split
            · apply ih
              simp only [List.length_drop]
              have : (0 : Nat) < endTok.length := by decide
              omega
            · apply ih
              simp only [List.length_drop]
              have : (0 : Nat) < endTok.length := by decide
              omega

/-- The carry left by any invocation of the tokenizer is empty: the
trailing `this._textToolParserBuffer = data` of the source overwrites
both in-loop carry assignments with the loop-final (empty) `data`. -/
theorem processTextContent_carry_empty (st : ProviderState) (input : List Char) :
    (processTextContent st input).st.textToolParserBuffer = [] := by
  unfold processTextContent
  exact textLoop_residual _ _ _ _ _ (Nat.lt_succ_self _)

/-- C5.  After every invocation of the inline control-token tokenizer on
a content fragment, the carry buffer held across delta boundaries never
contains a complete sentinel token — neither the begin marker, nor the
arguments-begin marker, nor the end marker — and is a proper prefix of
the begin marker (so it could still extend into one with more input).
In the code as written this holds in a degenerate form: the loop
epilogue always stores the emptied `data`, so the carry is empty. -/
theorem claim5_carry_never_holds_sentinel (st : ProviderState) (input : List Char) :
    indexOf (processTextContent st input).st.textToolParserBuffer beginTok = none ∧
    indexOf (processTextContent st input).st.textToolParserBuffer argBeginTok = none ∧
    indexOf (processTextContent st input).st.textToolParserBuffer endTok = none ∧
    (processTextContent st input).st.textToolParserBuffer.isPrefixOf beginTok = true ∧
    (processTextContent st input).st.textToolParserBuffer ≠ beginTok := by
  rw [processTextContent_carry_empty st input]
  refine ⟨by decide, by decide, by decide, by decide, by decide⟩

/-! ## Inline round-trip -/

/-- The spec's round-trip input with the concrete sentinels substituted:
`before <BEGIN>search:0<ARGS>{"q":"x"}<END> after`. -/
def roundTripInput : List Char :=
  ("before <|tool_call_begin|>search:0<|tool_call_argument_begin|>" ++
   "\x7b\"q\":\"x\"\x7d<|tool_call_end|> after").data

/-- C7.  Feeding the inline-encoded round-trip content through the
tokenizer yields exactly one tool-call part named `search` with
arguments `{q: "x"}`, and the visible text `"before "` and `" after"`
as one concatenated part — which contains no sentinel text, so no
sentinel reaches the visible output. -/
theorem claim7_inline_round_trip :
    (processTextContent initState roundTripInput).parts =
      [ResponsePart.toolCall none "search" (Json.obj [("q", Json.str "x")]),
       ResponsePart.text "before  after"] ∧
    textConcat (processTextContent initState roundTripInput).parts = "before  after" ∧
    indexOf "before  after".data beginTok = none ∧
    indexOf "before  after".data argBeginTok = none ∧
    indexOf "before  after".data endTok = none := by
  refine ⟨rfl, ?_, by decide, by decide, by decide⟩
  rw [show (processTextContent initState roundTripInput).parts =
      [ResponsePart.toolCall none "search" (Json.obj [("q", Json.str "x")]),
       ResponsePart.text "before  after"] from rfl]
  rfl

/-! ## Association-list facts for the tool-call buffer map -/

theorem lookupBuf_some_mem {l : List (Nat × ToolCallBuffer)} {i : Nat} {b : ToolCallBuffer}
    (h : lookupBuf l i = some b) : (i, b) ∈ l := by
  induction l with
  | nil => simp [lookupBuf] at h
  | cons hd tl ih =>
    by_cases hh : hd.1 = i
    · simp only [lookupBuf, if_pos hh] at h
      cases hd
      simp_all
    · simp only [lookupBuf, if_neg hh] at h
      exact List.mem_cons_of_mem _ (ih h)

theorem mem_lookupBuf_nodup {l : List (Nat × ToolCallBuffer)} {i : Nat} {b : ToolCallBuffer}
    (hnd : (l.map Prod.fst).Nodup) (hm : (i, b) ∈ l) : lookupBuf l i = some b := by
  induction l with
  | nil => simp at hm
  | cons hd tl ih =>
    simp only [List.map_cons, List.nodup_cons] at hnd
    rcases List.mem_cons.mp hm with hm | hm
    · subst hm; simp [lookupBuf]
    · have hne : hd.1 ≠ i := by
        intro he
        exact hnd.1 (by
          refine List.mem_map.mpr ⟨(i, b), hm, ?_⟩
          simp [he])
      simp only [lookupBuf, if_neg hne]
      exact ih hnd.2 hm

theorem lookupBuf_eraseBuf_self (l : List (Nat × ToolCallBuffer)) (i : Nat) :
    lookupBuf (eraseBuf l i) i = none := by
  induction l with
  | nil => rfl
  | cons hd tl ih =>
    by_cases hh : hd.1 = i
    · unfold eraseBuf at ih ⊢
      rw [List.filter_cons_of_neg (by simpa using hh)]
      exact ih
    · unfold eraseBuf at ih ⊢
      rw [List.filter_cons_of_pos (by simpa using hh)]
      simp only [lookupBuf, if_neg hh]
      exact ih

theorem lookupBuf_eraseBuf_ne (l : List (Nat × ToolCallBuffer)) {i j : Nat} (h : j ≠ i) :
    lookupBuf (eraseBuf l i) j = lookupBuf l j := by
  induction l with
  | nil => rfl
  | cons hd tl ih =>
    by_cases hh : hd.1 = i
    · unfold eraseBuf at ih ⊢
      rw [List.filter_cons_of_neg (by simpa using hh)]
      have hj : hd.1 ≠ j := by rw [hh]; exact fun he => h he.symm
      rw [ih]
      simp only [lookupBuf, if_neg hj]
    · unfold eraseBuf at ih ⊢
      rw [List.filter_cons_of_pos (by simpa using hh)]
      simp only [lookupBuf]
      by_cases hj : hd.1 = j
      · rw [if_pos hj, if_pos hj]
      · rw [if_neg hj, if_neg hj]
        exact ih

theorem keys_eraseBuf_nodup {l : List (Nat × ToolCallBuffer)} (i : Nat)
    (h : (l.map Prod.fst).Nodup) : ((eraseBuf l i).map Prod.fst).Nodup :=
  (List.Sublist.map _ (List.filter_sublist l)).nodup h

/-! ## The standard-path invariant and the flush walk -/

/-- The standing invariant of the standard tool-call path: a completed
index has no buffer entry, and the buffer map has unique keys (as a JS
`Map` always does). -/
def StdInv (st : ProviderState) : Prop :=
  (∀ i ∈ st.completedToolCallIndices, lookupBuf st.toolCallBuffers i = none) ∧
  (st.toolCallBuffers.map Prod.fst).Nodup

theorem stdInv_init : StdInv initState := by
  constructor
  · intro i hi
    simp [initState] at hi
  · simp [initState]

/-- The `[DONE]` variant of the flush never throws. -/
theorem flushWalk_no_throw (entries : List (Nat × ToolCallBuffer)) :
    ∀ st acc, (flushWalk entries false st acc).2.2 = none := by
  induction entries with
  | nil => intro st acc; rfl
  | cons hd tl ih =>
    intro st acc
    rcases hd with ⟨idx, buf⟩
    simp only [flushWalk]
    rcases hparse : tryParseJSONObject buf.args with _ | fields
    · exact ih st acc
    · exact ih _ _

/-- The throwing variant throws as soon as any walked entry has
non-parseable arguments. -/
theorem flushWalk_throws (entries : List (Nat × ToolCallBuffer)) :
    ∀ st acc, (∃ p ∈ entries, tryParseJSONObject p.2.args = none) →
      (flushWalk entries true st acc).2.2 = some "Invalid JSON for tool call" := by
  induction entries with
  | nil => intro st acc h; simp at h
  | cons hd tl ih =>
    intro st acc h
    rcases hd with ⟨idx, buf⟩
    simp only [flushWalk]
    rcases hparse : tryParseJSONObject buf.args with _ | fields
    · rfl
    · apply ih
      rcases h with ⟨p, hp, hpp⟩
      rcases List.mem_cons.mp hp with hp | hp
      · subst hp; simp [hparse] at hpp
      · exact ⟨p, hp, hpp⟩

/-- The master description of the flush walk when it does not throw:
the invariant is preserved, the completed set only grows, every reported
part corresponds to one index newly inserted into the completed set,
walked entries with parseable arguments end up completed, keys the walk
does not own are untouched, and walked entries with non-parseable
arguments are left buffered and uncompleted. -/
theorem flushWalk_main (thr : Bool) :
    ∀ (entries : List (Nat × ToolCallBuffer)) (st : ProviderState) (acc : List ResponsePart),
      StdInv st →
      (∀ p ∈ entries, lookupBuf st.toolCallBuffers p.1 = some p.2) →
      (entries.map Prod.fst).Nodup →
      (flushWalk entries thr st acc).2.2 = none →
      StdInv (flushWalk entries thr st acc).1 ∧
      st.completedToolCallIndices ⊆ (flushWalk entries thr st acc).1.completedToolCallIndices ∧
      toolCallCount (flushWalk entries thr st acc).2.1 + st.completedToolCallIndices.card
        = toolCallCount acc + (flushWalk entries thr st acc).1.completedToolCallIndices.card ∧
      (∀ p ∈ entries, (tryParseJSONObject p.2.args).isSome →
         p.1 ∈ (flushWalk entries thr st acc).1.completedToolCallIndices) ∧
      (∀ k, k ∉ entries.map Prod.fst →
         lookupBuf (flushWalk entries thr st acc).1.toolCallBuffers k
           = lookupBuf st.toolCallBuffers k ∧
         (k ∈ (flushWalk entries thr st acc).1.completedToolCallIndices ↔
            k ∈ st.completedToolCallIndices)) ∧
      (∀ p ∈ entries, tryParseJSONObject p.2.args = none →
         lookupBuf (flushWalk entries thr st acc).1.toolCallBuffers p.1 = some p.2 ∧
         p.1 ∉ (flushWalk entries thr st acc).1.completedToolCallIndices) := by
  intro entries
  induction entries with
  | nil =>
    intro st acc hInv hEnt hNd herr
    refine ⟨hInv, Finset.Subset.refl _, rfl, by simp, ?_, by simp⟩
    intro k _
    exact ⟨rfl, Iff.rfl⟩
  | cons hd tl ih =>
    intro st acc hInv hEnt hNd herr
    rcases hd with ⟨idx, buf⟩
    have hidxlk : lookupBuf st.toolCallBuffers idx = some buf :=
      hEnt (idx, buf) (List.mem_cons_self _ _)
    have hidxnc : idx ∉ st.completedToolCallIndices := by
      intro hmem
      rw [hInv.1 idx hmem] at hidxlk
      exact Option.noConfusion hidxlk
    simp only [List.map_cons, List.nodup_cons] at hNd
    rcases hparse : tryParseJSONObject buf.args with _ | fields
    · -- head entry does not parse
      cases thr with
      | false =>
        -- silent skip
        simp only [flushWalk, hparse,
          if_neg (show ¬(false = true) by decide)] at herr ⊢
        have hres := ih st acc hInv
          (fun p hp => hEnt p (List.mem_cons_of_mem _ hp)) hNd.2 herr
        refine ⟨hres.1, hres.2.1, hres.2.2.1, ?_, ?_, ?_⟩
        · intro p hp hpp
          rcases List.mem_cons.mp hp with hp | hp
          · subst hp; simp [hparse] at hpp
          · exact hres.2.2.2.1 p hp hpp
        · intro k hk
          exact hres.2.2.2.2.1 k (fun hm => hk (List.mem_cons_of_mem _ hm))
        · intro p hp hpp
          rcases List.mem_cons.mp hp with hp | hp
          · subst hp
            have hkey := hres.2.2.2.2.1 idx hNd.1
            refine ⟨?_, fun hmem => hidxnc (hkey.2.mp hmem)⟩
            rw [hkey.1]
            exact hidxlk
          · exact hres.2.2.2.2.2 p hp hpp
      | true =>
        -- throwing variant: the walk aborted, contradicting `herr`
        simp [flushWalk, hparse] at herr
    · -- head entry parses and is emitted
      simp only [flushWalk, hparse] at herr ⊢
      have hInv' : StdInv { st with
          emittedTextToolCallKeys := insert ((buf.name.getD "unknown_tool") ++ ":" ++
            stringify (Json.obj fields)) st.emittedTextToolCallKeys
          toolCallBuffers := eraseBuf st.toolCallBuffers idx
          completedToolCallIndices := insert idx st.completedToolCallIndices } := by
        constructor
        · intro j hj
          rcases Finset.mem_insert.mp hj with hj | hj
          · subst hj; exact lookupBuf_eraseBuf_self _ _
          · have hji : j ≠ idx := fun he => hidxnc (he ▸ hj)
            rw [lookupBuf_eraseBuf_ne _ hji]
            exact hInv.1 j hj
        · exact keys_eraseBuf_nodup _ hInv.2
      have hEnt' : ∀ p ∈ tl, lookupBuf (eraseBuf st.toolCallBuffers idx) p.1 = some p.2 := by
        intro p hp
        have hpi : p.1 ≠ idx := by
          intro he
          exact hNd.1 (he ▸ List.mem_map.mpr ⟨p, hp, rfl⟩)
        rw [lookupBuf_eraseBuf_ne _ hpi]
        exact hEnt p (List.mem_cons_of_mem _ hp)
      have hres := ih _ _ hInv' hEnt' hNd.2 herr
      have hcard : (insert idx st.completedToolCallIndices).card
          = st.completedToolCallIndices.card + 1 :=
        Finset.card_insert_of_not_mem hidxnc
      have hcnt : toolCallCount (acc ++ [ResponsePart.toolCall buf.id
          (buf.name.getD "unknown_tool") (Json.obj fields)]) = toolCallCount acc + 1 := by
        simp [toolCallCount, List.countP_append, isToolCallPart]
      refine ⟨hres.1, ?_, ?_, ?_, ?_, ?_⟩
      · exact (Finset.subset_insert _ _).trans hres.2.1
      · have hq := hres.2.2.1
        rw [hcnt] at hq
        simp only at hq ⊢
        omega
      · intro p hp hpp
        rcases List.mem_cons.mp hp with hp | hp
        · subst hp
          exact hres.2.1 (Finset.mem_insert_self _ _)
        · exact hres.2.2.2.1 p hp hpp
      · intro k hk
        have hki : k ≠ idx := fun he => hk (he ▸ List.mem_cons_self _ _)
        have hkt : k ∉ tl.map Prod.fst := fun hm => hk (List.mem_cons_of_mem _ hm)
        have hkey := hres.2.2.2.2.1 k hkt
        constructor
        · rw [hkey.1]
          exact lookupBuf_eraseBuf_ne _ hki
        · rw [hkey.2]
          simp [Finset.mem_insert, hki]
      · intro p hp hpp
        rcases List.mem_cons.mp hp with hp | hp
        · subst hp; simp [hparse] at hpp
        · exact hres.2.2.2.2.2 p hp hpp

theorem lookupBuf_append_of_none {l : List (Nat × ToolCallBuffer)} {i : Nat}
    (h : lookupBuf l i = none) (l' : List (Nat × ToolCallBuffer)) :
    lookupBuf (l ++ l') i = lookupBuf l' i := by
  induction l with
  | nil => rfl
  | cons hd tl ih =>
    by_cases hh : hd.1 = i
    · simp only [lookupBuf, if_pos hh] at h
      exact Option.noConfusion h
    · simp only [lookupBuf, if_neg hh] at h
      simp only [List.cons_append, lookupBuf, if_neg hh]
      exact ih h

theorem any_key_false_lookup {l : List (Nat × ToolCallBuffer)} {i : Nat}
    (h : l.any (fun p => p.1 = i) = false) : lookupBuf l i = none := by
  induction l with
  | nil => rfl
  | cons hd tl ih =>
    simp only [List.any_cons, Bool.or_eq_false_iff] at h
    have hh : hd.1 ≠ i := by simpa using h.1
    simp only [lookupBuf, if_neg hh]
    exact ih h.2

theorem lookupBuf_setBuf_self (l : List (Nat × ToolCallBuffer)) (i : Nat) (b : ToolCallBuffer) :
    lookupBuf (setBuf l i b) i = some b := by
  unfold setBuf
  by_cases ha : l.any (fun p => p.1 = i) = true
  · rw [if_pos ha]
    induction l with
    | nil => simp at ha
    | cons hd tl ih =>
      by_cases hh : hd.1 = i
      · simp [List.map_cons, if_pos hh, lookupBuf]
      · simp only [List.any_cons] at ha
        have ha' : tl.any (fun p => p.1 = i) = true := by
          rcases Bool.or_eq_true_iff.mp ha with h1 | h1
          · exact absurd (by simpa using h1) hh
          · exact h1
        simp only [List.map_cons, if_neg hh, lookupBuf, if_neg hh]
        exact ih ha'
  · rw [if_neg ha]
    rw [lookupBuf_append_of_none (any_key_false_lookup (Bool.not_eq_true _ ▸ ha))]
    simp [lookupBuf]

theorem lookupBuf_setBuf_ne (l : List (Nat × ToolCallBuffer)) {i j : Nat} (h : j ≠ i)
    (b : ToolCallBuffer) : lookupBuf (setBuf l i b) j = lookupBuf l j := by
  have hij : ¬ ((i, b).1 = j) := fun he => h (by simpa using he.symm)
  unfold setBuf
  by_cases ha : l.any (fun p => p.1 = i) = true
  · rw [if_pos ha]
    clear ha
    induction l with
    | nil => rfl
    | cons hd tl ih =>
      by_cases hh : hd.1 = i
      · have hj : hd.1 ≠ j := by rw [hh]; exact fun he => h he.symm
        simp only [List.map_cons, if_pos hh, lookupBuf]
        rw [if_neg hij, if_neg hj]
        exact ih
      · simp only [List.map_cons, if_neg hh, lookupBuf]
        by_cases hj : hd.1 = j
        · rw [if_pos hj, if_pos hj]
        · rw [if_neg hj, if_neg hj]
          exact ih
  · rw [if_neg ha]
    induction l with
    | nil =>
      simp only [List.nil_append, lookupBuf]
      rw [if_neg hij]
    | cons hd tl ih =>
      simp only [List.any_cons, Bool.or_eq_true_iff, not_or] at ha
      simp only [List.cons_append, lookupBuf]
      by_cases hj : hd.1 = j
      · rw [if_pos hj, if_pos hj]
      · rw [if_neg hj, if_neg hj]
        exact ih (by
          simp only [List.any_eq_true, not_exists]
          rcases ha with ⟨_, ha2⟩
          simp only [List.any_eq_true, not_exists] at ha2
          exact ha2)

theorem keys_setBuf_nodup {l : List (Nat × ToolCallBuffer)} (i : Nat) (b : ToolCallBuffer)
    (h : (l.map Prod.fst).Nodup) : ((setBuf l i b).map Prod.fst).Nodup := by
  unfold setBuf
  by_cases ha : l.any (fun p => p.1 = i) = true
  · rw [if_pos ha]
    have hkeys : (l.map (fun p => if p.1 = i then (i, b) else p)).map Prod.fst
        = l.map Prod.fst := by
      rw [List.map_map]
      apply List.map_congr_left
      intro p _
      by_cases hp : p.1 = i
      · simp [hp]
      · simp [hp]
    rw [hkeys]
    exact h
  · rw [if_neg ha]
    rw [List.map_append]
    apply List.Nodup.append h (by simp)
    intro k hk hk'
    simp only [List.map_cons, List.map_nil, List.mem_singleton] at hk'
    subst hk'
    rcases List.mem_map.mp hk with ⟨p, hp, hpe⟩
    simp only [List.any_eq_true] at ha
    exact ha ⟨p, hp, by simp [hpe]⟩

/-- The `[DONE]` flush never throws. -/
theorem flushToolCallBuffers_no_throw (st : ProviderState) :
    (flushToolCallBuffers false st).2.2 = none := by
  unfold flushToolCallBuffers
  by_cases hb : st.toolCallBuffers = []
  · rw [if_pos hb]
  · rw [if_neg hb]
    exact flushWalk_no_throw _ _ _

/-- The turn-completion flush throws whenever some buffered entry has
non-parseable arguments. -/
theorem flushToolCallBuffers_throws {st : ProviderState} {i : Nat} {buf : ToolCallBuffer}
    (hlk : lookupBuf st.toolCallBuffers i = some buf)
    (hbad : tryParseJSONObject buf.args = none) :
    (flushToolCallBuffers true st).2.2 = some "Invalid JSON for tool call" := by
  unfold flushToolCallBuffers
  have hne : st.toolCallBuffers ≠ [] := by
    intro hb
    rw [hb] at hlk
    exact Option.noConfusion hlk
  rw [if_neg hne]
  exact flushWalk_throws _ _ _ ⟨(i, buf), lookupBuf_some_mem hlk, hbad⟩

/-- `flushWalk_main` carried over to the `flushToolCallBuffers` wrapper. -/
theorem flushToolCallBuffers_main (thr : Bool) (st : ProviderState)
    (hInv : StdInv st) (herr : (flushToolCallBuffers thr st).2.2 = none) :
    StdInv (flushToolCallBuffers thr st).1 ∧
    st.completedToolCallIndices ⊆ (flushToolCallBuffers thr st).1.completedToolCallIndices ∧
    toolCallCount (flushToolCallBuffers thr st).2.1 + st.completedToolCallIndices.card
      = (flushToolCallBuffers thr st).1.completedToolCallIndices.card ∧
    (∀ i bf, lookupBuf st.toolCallBuffers i = some bf → (tryParseJSONObject bf.args).isSome →
       i ∈ (flushToolCallBuffers thr st).1.completedToolCallIndices) ∧
    (∀ i bf, lookupBuf st.toolCallBuffers i = some bf → tryParseJSONObject bf.args = none →
       lookupBuf (flushToolCallBuffers thr st).1.toolCallBuffers i = some bf ∧
       i ∉ (flushToolCallBuffers thr st).1.completedToolCallIndices) := by
  unfold flushToolCallBuffers at herr ⊢
  by_cases hb : st.toolCallBuffers = []
  · rw [if_pos hb] at herr ⊢
    refine ⟨hInv, Finset.Subset.refl _, by simp [toolCallCount], ?_, ?_⟩
    · intro i bf hlk
      rw [hb] at hlk
      exact absurd hlk (by simp [lookupBuf])
    · intro i bf hlk
      rw [hb] at hlk
      exact absurd hlk (by simp [lookupBuf])
  · rw [if_neg hb] at herr ⊢
    have hEnt : ∀ p ∈ st.toolCallBuffers, lookupBuf st.toolCallBuffers p.1 = some p.2 := by
      intro p hp
      cases p
      exact mem_lookupBuf_nodup hInv.2 hp
    have hres := flushWalk_main thr st.toolCallBuffers st [] hInv hEnt hInv.2 herr
    refine ⟨hres.1, hres.2.1, by simpa [toolCallCount] using hres.2.2.1, ?_, ?_⟩
    · intro i bf hlk hok
      exact hres.2.2.2.1 (i, bf) (lookupBuf_some_mem hlk) hok
    · intro i bf hlk hbad
      exact hres.2.2.2.2.2 (i, bf) (lookupBuf_some_mem hlk) hbad

/-- One early-emission attempt preserves the invariant, only grows the
completed set, and reports a part exactly when it inserts the index. -/
theorem tryEmitBufferedToolCall_step (index : Nat) (st : ProviderState) (hInv : StdInv st) :
    StdInv (tryEmitBufferedToolCall index st).1 ∧
    st.completedToolCallIndices ⊆ (tryEmitBufferedToolCall index st).1.completedToolCallIndices ∧
    toolCallCount (tryEmitBufferedToolCall index st).2.toList + st.completedToolCallIndices.card
      = (tryEmitBufferedToolCall index st).1.completedToolCallIndices.card := by
  rcases hlk : lookupBuf st.toolCallBuffers index with _ | buf
  · simp only [tryEmitBufferedToolCall, hlk]
    exact ⟨hInv, Finset.Subset.refl _, by simp [toolCallCount]⟩
  · rcases hn : buf.name with _ | nm
    · simp only [tryEmitBufferedToolCall, hlk, hn]
      exact ⟨hInv, Finset.Subset.refl _, by simp [toolCallCount]⟩
    · by_cases hne : nm = ""
      · simp only [tryEmitBufferedToolCall, hlk, hn, if_pos hne]
        exact ⟨hInv, Finset.Subset.refl _, by simp [toolCallCount]⟩
      · rcases hparse : tryParseJSONObject buf.args with _ | fields
        · simp only [tryEmitBufferedToolCall, hlk, hn, if_neg hne, hparse]
          exact ⟨hInv, Finset.Subset.refl _, by simp [toolCallCount]⟩
        · simp only [tryEmitBufferedToolCall, hlk, hn, if_neg hne, hparse]
          have hidxnc : index ∉ st.completedToolCallIndices := by
            intro hmem
            rw [hInv.1 index hmem] at hlk
            exact Option.noConfusion hlk
          refine ⟨⟨?_, keys_eraseBuf_nodup _ hInv.2⟩, Finset.subset_insert _ _, ?_⟩
          · intro j hj
            rcases Finset.mem_insert.mp hj with hj | hj
            · subst hj; exact lookupBuf_eraseBuf_self _ _
            · have hji : j ≠ index := fun he => hidxnc (he ▸ hj)
              rw [lookupBuf_eraseBuf_ne _ hji]
              exact hInv.1 j hj
          · simp only [toolCallCount, isToolCallPart, Finset.card_insert_of_not_mem hidxnc,
              Option.toList_some, List.countP_cons_of_pos, List.countP_nil]
            omega

/-- Replacing the buffer entry at an uncompleted index keeps the
invariant (completed indices still have no entry; keys stay unique). -/
theorem stdInv_setBuf {st : ProviderState} (hInv : StdInv st) {idx : Nat}
    (hidx : idx ∉ st.completedToolCallIndices) (b : ToolCallBuffer) :
    StdInv { st with toolCallBuffers := setBuf st.toolCallBuffers idx b } := by
  constructor
  · intro j hj
    have hji : j ≠ idx := fun he => hidx (he ▸ hj)
    simp only
    rw [lookupBuf_setBuf_ne _ hji]
    exact hInv.1 j hj
  · exact keys_setBuf_nodup _ _ hInv.2

/-- One fragment preserves the invariant, only grows the completed set,
and reports a part exactly when it inserts the fragment's index. -/
theorem processToolCallFragment_step (st : ProviderState) (tc : ToolCallFragment)
    (hInv : StdInv st) :
    StdInv (processToolCallFragment st tc).1 ∧
    st.completedToolCallIndices ⊆ (processToolCallFragment st tc).1.completedToolCallIndices ∧
    toolCallCount (processToolCallFragment st tc).2 + st.completedToolCallIndices.card
      = (processToolCallFragment st tc).1.completedToolCallIndices.card := by
  unfold processToolCallFragment
  by_cases hc : tc.index.getD 0 ∈ st.completedToolCallIndices
  · rw [if_pos hc]
    exact ⟨hInv, Finset.Subset.refl _, by simp [toolCallCount]⟩
  · rw [if_neg hc]
    have hInv1 := stdInv_setBuf hInv hc
      (mergeFragment ((lookupBuf st.toolCallBuffers (tc.index.getD 0)).getD {}) tc)
    have hstep := tryEmitBufferedToolCall_step (tc.index.getD 0) _ hInv1
    refine ⟨hstep.1, hstep.2.1, ?_⟩
    simpa [toolCallCount] using hstep.2.2

/-- A fragment run preserves the invariant, only grows the completed
set, and reports one part per index inserted into the completed set. -/
theorem runFragments_step (frs : List ToolCallFragment) :
    ∀ st, StdInv st →
      StdInv (runFragments st frs).1 ∧
      st.completedToolCallIndices ⊆ (runFragments st frs).1.completedToolCallIndices ∧
      toolCallCount (runFragments st frs).2 + st.completedToolCallIndices.card
        = (runFragments st frs).1.completedToolCallIndices.card := by
  induction frs with
  | nil =>
    intro st hInv
    exact ⟨hInv, Finset.Subset.refl _, by simp [toolCallCount, runFragments]⟩
  | cons tc rest ih =>
    intro st hInv
    have h1 := processToolCallFragment_step st tc hInv
    have h2 := ih _ h1.1
    simp only [runFragments]
    refine ⟨h2.1, h1.2.1.trans h2.2.1, ?_⟩
    have hc1 := h1.2.2
    have hc2 := h2.2.2
    simp only [toolCallCount, List.countP_append] at hc1 hc2 ⊢
    omega

/-! ## Claim 1: the two flush variants -/

/-- A delta whose only payload is a finish reason. -/
def finishDelta (f : String) : Json :=
  Json.obj [("choices", Json.arr [Json.obj [("finish_reason", Json.str f)]])]

/-- On a finish-reason-only delta with reason `tool_calls` or `stop`,
`processDelta` is exactly the throwing flush. -/
theorem processDelta_finishDelta (st : ProviderState) (f : String)
    (hf : f = "tool_calls" ∨ f = "stop") :
    processDelta st (finishDelta f) =
      { st := (flushToolCallBuffers true st).1
        parts := (flushToolCallBuffers true st).2.1
        emitted := !(flushToolCallBuffers true st).2.1.isEmpty
        err := (flushToolCallBuffers true st).2.2 } := by
  rcases hf with hf | hf <;> subst hf <;> rfl

/-- The inline dedup/emission step never touches the standard path's
buffer map or completed-index set. -/
theorem emitTextToolCallIfValid_std (st : ProviderState) (call : ActiveTextToolCall)
    (t : List Char) :
    (emitTextToolCallIfValid st call t).1.toolCallBuffers = st.toolCallBuffers ∧
    (emitTextToolCallIfValid st call t).1.completedToolCallIndices
      = st.completedToolCallIndices := by
  rcases hp : tryParseJSONObjectChars t with _ | fields
  · simp only [emitTextToolCallIfValid, hp]
    exact ⟨trivial, trivial⟩
  · rcases hi : call.index with _ | i
    · simp only [emitTextToolCallIfValid, hp, hi]
      split <;> exact ⟨rfl, rfl⟩
    · simp only [emitTextToolCallIfValid, hp, hi]
      split <;> exact ⟨rfl, rfl⟩

/-- Flushing the active inline call never touches the standard path's
buffer map or completed-index set either. -/
theorem flushActiveTextToolCall_std (st : ProviderState) :
    (flushActiveTextToolCall st).1.toolCallBuffers = st.toolCallBuffers ∧
    (flushActiveTextToolCall st).1.completedToolCallIndices
      = st.completedToolCallIndices := by
  rcases ha : st.textToolActive with _ | call
  · simp only [flushActiveTextToolCall, ha]
    exact ⟨trivial, trivial⟩
  · rcases hp : tryParseJSONObjectChars call.argBuffer with _ | fields
    · simp only [flushActiveTextToolCall, ha, hp]
      exact ⟨trivial, trivial⟩
    · simp only [flushActiveTextToolCall, ha, hp]
      exact (emitTextToolCallIfValid_std st call call.argBuffer)

/-- `processLine` on the `[DONE]` line is the non-throwing buffer flush
followed by the inline-call flush. -/
theorem processLine_done (st : ProviderState) :
    processLine st ("data: [DONE]".data) =
      ((flushActiveTextToolCall (flushToolCallBuffers false st).1).1,
       (flushToolCallBuffers false st).2.1 ++
         (flushActiveTextToolCall (flushToolCallBuffers false st).1).2.toList) := rfl

/-- C1.  With a buffered standard-format tool call whose accumulated
arguments do not parse as a JSON object: a delta carrying finish reason
`"tool_calls"` or `"stop"` makes the turn-completion flush raise
`Invalid JSON for tool call`, while flushing the very same buffer state
via a `[DONE]` line raises nothing and emits no tool-call part for that
index — the index never becomes completed and its entry stays buffered
untouched. -/
theorem claim1_finish_raises_done_does_not
    (st : ProviderState) (i : Nat) (buf : ToolCallBuffer)
    (hInv : StdInv st)
    (hlk : lookupBuf st.toolCallBuffers i = some buf)
    (hbad : tryParseJSONObject buf.args = none) :
    (flushToolCallBuffers true st).2.2 = some "Invalid JSON for tool call" ∧
    (∀ f, f = "tool_calls" ∨ f = "stop" →
       (processDelta st (finishDelta f)).err = some "Invalid JSON for tool call") ∧
    (flushToolCallBuffers false st).2.2 = none ∧
    i ∉ (processLine st ("data: [DONE]".data)).1.completedToolCallIndices ∧
    lookupBuf (processLine st ("data: [DONE]".data)).1.toolCallBuffers i = some buf := by
  have hthrow := flushToolCallBuffers_throws hlk hbad
  have hnothrow := flushToolCallBuffers_no_throw st
  have hmain := flushToolCallBuffers_main false st hInv hnothrow
  have hkeep := hmain.2.2.2.2 i buf hlk hbad
  have hstd := flushActiveTextToolCall_std (flushToolCallBuffers false st).1
  refine ⟨hthrow, ?_, hnothrow, ?_, ?_⟩
  · intro f hf
    rw [processDelta_finishDelta st f hf]
    exact hthrow
  · rw [processLine_done]
    simp only [hstd.2]
    exact hkeep.2
  · rw [processLine_done]
    simp only [hstd.1]
    exact hkeep.1

/-- The buffer state of the C1 witness: index `0` holds the accumulated
arguments `"{invalid"`. -/
def c1State : ProviderState :=
  { initState with
    toolCallBuffers := [(0, { id := none, name := none, args := "\x7binvalid" })] }

theorem claim1_witness :
    (flushToolCallBuffers true c1State).2.2 = some "Invalid JSON for tool call" ∧
    (∀ f, f = "tool_calls" ∨ f = "stop" →
       (processDelta c1State (finishDelta f)).err = some "Invalid JSON for tool call") ∧
    (flushToolCallBuffers false c1State).2.2 = none ∧
    0 ∉ (processLine c1State ("data: [DONE]".data)).1.completedToolCallIndices ∧
    lookupBuf (processLine c1State ("data: [DONE]".data)).1.toolCallBuffers 0
      = some { id := none, name := none, args := "\x7binvalid" } :=
  claim1_finish_raises_done_does_not c1State 0
    { id := none, name := none, args := "\x7binvalid" }
    ⟨fun i hi => absurd hi (by simp [c1State, initState]), by simp [c1State]⟩
    rfl rfl

/-! ## Claim 2: exactly one emission per index -/

/-- C2.  Fragments for an already-completed index are ignored outright
(state unchanged, nothing reported); and over any standard-format
fragment sequence of one stream followed by either flush variant, the
number of reported tool-call parts equals the number of completed
indices — so each completed index was emitted exactly once, whether it
became ready early or only at the flush — and every index whose
accumulated arguments parse as a JSON object at flush time (as well as
every early-emitted index) is completed by the flush. -/
theorem claim2_exactly_once_per_index :
    (∀ st tc, tc.index.getD 0 ∈ st.completedToolCallIndices →
       processToolCallFragment st tc = (st, [])) ∧
    (∀ frs thr,
       (flushToolCallBuffers thr (runFragments initState frs).1).2.2 = none →
       toolCallCount ((runFragments initState frs).2
           ++ (flushToolCallBuffers thr (runFragments initState frs).1).2.1)
         = (flushToolCallBuffers thr
             (runFragments initState frs).1).1.completedToolCallIndices.card ∧
       (∀ i bf, lookupBuf (runFragments initState frs).1.toolCallBuffers i = some bf →
          (tryParseJSONObject bf.args).isSome →
          i ∈ (flushToolCallBuffers thr
                (runFragments initState frs).1).1.completedToolCallIndices) ∧
       (runFragments initState frs).1.completedToolCallIndices ⊆
         (flushToolCallBuffers thr
           (runFragments initState frs).1).1.completedToolCallIndices) := by
  constructor
  · intro st tc h
    unfold processToolCallFragment
    rw [if_pos h]
  · intro frs thr herr
    have h1 := runFragments_step frs initState stdInv_init
    have hcard0 : (initState.completedToolCallIndices).card = 0 := rfl
    have hm := flushToolCallBuffers_main thr (runFragments initState frs).1 h1.1 herr
    refine ⟨?_, hm.2.2.2.1, hm.2.1⟩
    have hc1 := h1.2.2
    have hc2 := hm.2.2.1
    simp only [toolCallCount, List.countP_append] at hc1 hc2 ⊢
    omega

/-- The single fragment of the C2 witness: index 0, a complete `{}`
argument payload in one piece. -/
def c2Fragment : ToolCallFragment :=
  { index := some 0, id := some "id0", fname := some "f", fargs := some "\x7b\x7d" }

/-- A state in which index 0 is already completed. -/
def c2DoneState : ProviderState :=
  { initState with completedToolCallIndices := {0} }

theorem claim2_witness :
    processToolCallFragment c2DoneState c2Fragment = (c2DoneState, []) ∧
    toolCallCount ((runFragments initState [c2Fragment]).2
        ++ (flushToolCallBuffers false (runFragments initState [c2Fragment]).1).2.1)
      = (flushToolCallBuffers false
          (runFragments initState [c2Fragment]).1).1.completedToolCallIndices.card :=
  ⟨claim2_exactly_once_per_index.1 c2DoneState c2Fragment (by decide),
   (claim2_exactly_once_per_index.2 [c2Fragment] false rfl).1⟩

/-! ## Claim 9: nameless buffers and the unknown_tool fallback -/

/-- C9.  A buffered standard-format call whose name was never supplied
(`name = none`) is never emitted by the early-emission path — the
attempt is a strict no-op — but with arguments that parse as a JSON
object, both flush variants emit it under the fallback name
`"unknown_tool"` instead of dropping it. -/
theorem claim9_unknown_tool_fallback :
    (∀ st i buf, lookupBuf st.toolCallBuffers i = some buf → buf.name = none →
       tryEmitBufferedToolCall i st = (st, none)) ∧
    (∀ st i buf fields thr, buf.name = none →
       tryParseJSONObject buf.args = some fields →
       st.toolCallBuffers = [(i, buf)] →
       flushToolCallBuffers thr st =
         ({ st with
             emittedTextToolCallKeys :=
               insert ("unknown_tool:" ++ stringify (Json.obj fields))
                 st.emittedTextToolCallKeys
             toolCallBuffers := eraseBuf st.toolCallBuffers i
             completedToolCallIndices := insert i st.completedToolCallIndices },
          [ResponsePart.toolCall buf.id "unknown_tool" (Json.obj fields)], none)) := by
  constructor
  · intro st i buf hlk hn
    simp only [tryEmitBufferedToolCall, hlk, hn]
  · intro st i buf fields thr hn hparse hb
    rw [flushToolCallBuffers, hb]
    rw [if_neg (by simp)]
    simp only [flushWalk, hparse, hn, Option.getD_some, Option.getD_none, hb]
    rfl

/-- The buffer state of the C9 witness: index `5` holds a nameless call
with complete `{}` arguments. -/
def c9State : ProviderState :=
  { initState with
    toolCallBuffers := [(5, { id := some "sid", name := none, args := "\x7b\x7d" })] }

theorem claim9_witness :
    tryEmitBufferedToolCall 5 c9State = (c9State, none) ∧
    flushToolCallBuffers false c9State =
      ({ c9State with
          emittedTextToolCallKeys :=
            insert ("unknown_tool:" ++ stringify (Json.obj []))
              c9State.emittedTextToolCallKeys
          toolCallBuffers := eraseBuf c9State.toolCallBuffers 5
          completedToolCallIndices := insert 5 c9State.completedToolCallIndices },
       [ResponsePart.toolCall (some "sid") "unknown_tool" (Json.obj [])], none) :=
  ⟨claim9_unknown_tool_fallback.1 c9State 5
      { id := some "sid", name := none, args := "\x7b\x7d" } rfl rfl,
   claim9_unknown_tool_fallback.2 c9State 5
      { id := some "sid", name := none, args := "\x7b\x7d" } [] false rfl rfl rfl⟩

/-! ## Claim 10: a fragment with no index lands on index 0 -/

/-- C10.  A standard-format fragment whose `index` field is absent (or
`null`) is not rejected: `?? 0` makes the dispatcher treat it exactly as
index `0`, and its `id`, `name` and argument fragment merge into the
buffer for index `0` (shown concretely in the second conjunct). -/
theorem claim10_absent_index_is_zero :
    (∀ st id nm args,
       processToolCallFragment st { index := none, id := id, fname := nm, fargs := args }
         = processToolCallFragment st { index := some 0, id := id, fname := nm, fargs := args }) ∧
    processToolCallFragment initState
        { index := none, id := some "i1", fname := some "f", fargs := some "\x7b\"a\":" }
      = ({ initState with
            toolCallBuffers :=
              [(0, { id := some "i1", name := some "f", args := "\x7b\"a\":" })] },
         []) := by
  constructor
  · intro st id nm args
    rfl
  · rfl

/-! ## Claim 8: identity-key dedup for inline calls -/

/-- C8.  For inline-encoded calls carrying a positional index: a
successful emission records the identity key `name:index`, and once that
key is in the ledger, every later emission attempt for the same name and
index — whatever argument text it carries, parseable or not — emits
nothing and leaves the state untouched (first valid parse wins for a
given slot). -/
theorem claim8_identity_dedup :
    (∀ st call argText st' p i, call.index = some i →
       emitTextToolCallIfValid st call argText = (st', some p) →
       (call.name.getD "unknown_tool" ++ ":" ++ toString i) ∈ st'.emittedTextToolCallIds) ∧
    (∀ st call argText i, call.index = some i →
       (call.name.getD "unknown_tool" ++ ":" ++ toString i) ∈ st.emittedTextToolCallIds →
       emitTextToolCallIfValid st call argText = (st, none)) := by
  constructor
  · intro st call argText st' p i hi hemit
    rcases hp : tryParseJSONObjectChars argText with _ | fields
    · simp only [emitTextToolCallIfValid, hp] at hemit
      exact absurd (congrArg Prod.snd hemit) (by simp)
    · simp only [emitTextToolCallIfValid, hp, hi] at hemit
      by_cases hmem : (call.name.getD "unknown_tool" ++ ":" ++ toString i)
          ∈ st.emittedTextToolCallIds
      · rw [if_pos hmem] at hemit
        exact absurd (congrArg Prod.snd hemit) (by simp)
      · rw [if_neg hmem] at hemit
        rw [Prod.mk.injEq] at hemit
        rw [← hemit.1]
        exact Finset.mem_insert_self _ _
  · intro st call argText i hi hmem
    rcases hp : tryParseJSONObjectChars argText with _ | fields
    · simp only [emitTextToolCallIfValid, hp]
    · simp only [emitTextToolCallIfValid, hp, hi]
      rw [if_pos hmem]

/-- The first emission of the C8 witness: inline call `f:0` with `{}`. -/
def c8Call : ActiveTextToolCall :=
  { name := some "f", index := some 0, argBuffer := [], emitted := false }

/-- The state right after emitting `f:0` once. -/
def c8State : ProviderState :=
  (emitTextToolCallIfValid initState c8Call "\x7b\x7d".data).1

theorem claim8_witness :
    ("f:0" ∈ c8State.emittedTextToolCallIds) ∧
    emitTextToolCallIfValid c8State c8Call "\x7b\"different\":1\x7d".data = (c8State, none) :=
  ⟨claim8_identity_dedup.1 initState c8Call "\x7b\x7d".data c8State
      (ResponsePart.toolCall none "f" (Json.obj [])) 0 rfl rfl,
   claim8_identity_dedup.2 c8State c8Call "\x7b\"different\":1\x7d".data 0 rfl
     (claim8_identity_dedup.1 initState c8Call "\x7b\x7d".data c8State
        (ResponsePart.toolCall none "f" (Json.obj [])) 0 rfl rfl)⟩

/-! ## Claim 6: the JSON accumulator -/

/-- C6.  `tryParseJSONObject` succeeds exactly when `JSON.parse` yields
a top-level object; syntactically valid JSON with an array top level
(`[1,2,3]`) is rejected, malformed input (`not json`) is rejected, and
totality is never in question (no exception channel exists).  The three
concrete vectors are the repo's own test expectations
(provider.test.ts:1186-1189). -/
theorem claim6_accumulator_object_only :
    (∀ s, (tryParseJSONObject s).isSome ↔ ∃ fields, parseJSONStr s = some (Json.obj fields)) ∧
    tryParseJSONObject "\x7b\"a\":1\x7d" = some [("a", Json.num "1")] ∧
    tryParseJSONObject "[1,2,3]" = none ∧
    (parseJSONStr "[1,2,3]").isSome = true ∧
    tryParseJSONObject "not json" = none := by
  refine ⟨?_, rfl, rfl, rfl, rfl⟩
  intro s
  constructor
  · intro h
    unfold tryParseJSONObject at h
    rcases hp : parseJSONStr s with _ | j
    · rw [hp] at h; simp at h
    · rw [hp] at h
      cases j with
      | obj fields => exact ⟨fields, rfl⟩
      | null => simp at h
      | boolean b => simp at h
      | num lex => simp at h
      | str s2 => simp at h
      | arr es => simp at h
  · rintro ⟨fields, hp⟩
    unfold tryParseJSONObject
    rw [hp]
    rfl

/-! ## Claim 4: what finalization clears, and what it does not -/

theorem emitTextToolCallIfValid_ids_mono (st : ProviderState) (call : ActiveTextToolCall)
    (t : List Char) :
    st.emittedTextToolCallIds ⊆ (emitTextToolCallIfValid st call t).1.emittedTextToolCallIds := by
  rcases hp : tryParseJSONObjectChars t with _ | fields
  · simp only [emitTextToolCallIfValid, hp]
    exact Finset.Subset.refl _
  · rcases hi : call.index with _ | i
    · simp only [emitTextToolCallIfValid, hp, hi]
      split
      · exact Finset.Subset.refl _
      · exact Finset.Subset.refl _
    · simp only [emitTextToolCallIfValid, hp, hi]
      split
      · exact Finset.Subset.refl _
      · exact Finset.subset_insert _ _

theorem tryEmitBufferedToolCall_ids (index : Nat) (st : ProviderState) :
    (tryEmitBufferedToolCall index st).1.emittedTextToolCallIds
      = st.emittedTextToolCallIds := by
  rcases hlk : lookupBuf st.toolCallBuffers index with _ | buf
  · simp only [tryEmitBufferedToolCall, hlk]
  · rcases hn : buf.name with _ | nm
    · simp only [tryEmitBufferedToolCall, hlk, hn]
    · by_cases hne : nm = ""
      · simp only [tryEmitBufferedToolCall, hlk, hn, if_pos hne]
      · rcases hparse : tryParseJSONObject buf.args with _ | fields
        · simp only [tryEmitBufferedToolCall, hlk, hn, if_neg hne, hparse]
        · simp only [tryEmitBufferedToolCall, hlk, hn, if_neg hne, hparse]

theorem flushWalk_ids (entries : List (Nat × ToolCallBuffer)) :
    ∀ thr st acc, (flushWalk entries thr st acc).1.emittedTextToolCallIds
      = st.emittedTextToolCallIds := by
  induction entries with
  | nil => intro thr st acc; rfl
  | cons hd tl ih =>
    intro thr st acc
    rcases hd with ⟨idx, buf⟩
    rcases hparse : tryParseJSONObject buf.args with _ | fields
    · cases thr with
      | false =>
        simp only [flushWalk, hparse, if_neg (show ¬(false = true) by decide)]
        exact ih _ _ _
      | true => simp [flushWalk, hparse]
    · simp only [flushWalk, hparse]
      exact ih _ _ _

theorem flushToolCallBuffers_ids (thr : Bool) (st : ProviderState) :
    (flushToolCallBuffers thr st).1.emittedTextToolCallIds = st.emittedTextToolCallIds := by
  unfold flushToolCallBuffers
  by_cases hb : st.toolCallBuffers = []
  · rw [if_pos hb]
  · rw [if_neg hb]
    exact flushWalk_ids _ _ _ _

theorem processToolCallFragment_ids (st : ProviderState) (tc : ToolCallFragment) :
    (processToolCallFragment st tc).1.emittedTextToolCallIds
      = st.emittedTextToolCallIds := by
  unfold processToolCallFragment
  by_cases hc : tc.index.getD 0 ∈ st.completedToolCallIndices
  · rw [if_pos hc]
  · rw [if_neg hc]
    exact tryEmitBufferedToolCall_ids _ _

theorem fragmentLoop_ids (tcs : List Json) :
    ∀ st, (fragmentLoop st tcs).1.emittedTextToolCallIds = st.emittedTextToolCallIds := by
  induction tcs with
  | nil => intro st; rfl
  | cons tc rest ih =>
    intro st
    simp only [fragmentLoop]
    rw [ih, processToolCallFragment_ids]

theorem textLoop_ids_mono (fuel : Nat) :
    ∀ st data vis parts x, x ∈ st.emittedTextToolCallIds →
      x ∈ (textLoop fuel st data vis parts).st.emittedTextToolCallIds := by
  induction fuel with
  | zero => intro st data vis parts x hx; exact hx
  | succ n ih =>
    intro st data vis parts x hx
    by_cases hd : data = []
    · simp only [textLoop, if_pos hd]
      exact hx
    · simp only [textLoop, if_neg hd]
      split
      · -- no active call
        split
        · -- no begin marker: both break branches keep the ids
          split
          · exact hx
          · exact hx
        · -- begin marker found
          split
          · -- argument delimiter: recurse on a state with the same ids
            apply ih
            exact hx
          · split
            · -- end marker: no-args emission attempt, then recurse
              split
              · apply ih
                exact Finset.mem_of_subset (emitTextToolCallIfValid_ids_mono _ _ _) hx
              · apply ih
                exact Finset.mem_of_subset (emitTextToolCallIfValid_ids_mono _ _ _) hx
            · -- incomplete header break
              exact hx
      · -- active call
        split
        · -- no end marker: possible early emission, then break
          split
          · exact hx
          · split
            · exact Finset.mem_of_subset (emitTextToolCallIfValid_ids_mono _ _ _) hx
            · exact Finset.mem_of_subset (emitTextToolCallIfValid_ids_mono _ _ _) hx
        · -- end marker found: possible final emission, then recurse
          split
          · apply ih
            exact hx
          · split
            · apply ih
              exact Finset.mem_of_subset (emitTextToolCallIfValid_ids_mono _ _ _) hx
            · apply ih
              exact Finset.mem_of_subset (emitTextToolCallIfValid_ids_mono _ _ _) hx

theorem processTextContent_ids_mono (st : ProviderState) (input : List Char) (x : String)
    (hx : x ∈ st.emittedTextToolCallIds) :
    x ∈ (processTextContent st input).st.emittedTextToolCallIds := by
  unfold processTextContent
  exact textLoop_ids_mono _ _ _ _ _ x hx

theorem flushActiveTextToolCall_ids_mono (st : ProviderState) (x : String)
    (hx : x ∈ st.emittedTextToolCallIds) :
    x ∈ (flushActiveTextToolCall st).1.emittedTextToolCallIds := by
  rcases ha : st.textToolActive with _ | call
  · simp only [flushActiveTextToolCall, ha]
    exact hx
  · rcases hp : tryParseJSONObjectChars call.argBuffer with _ | fields
    · simp only [flushActiveTextToolCall, ha, hp]
      exact hx
    · simp only [flushActiveTextToolCall, ha, hp]
      exact Finset.mem_of_subset (emitTextToolCallIfValid_ids_mono _ _ _) hx

theorem processDelta_ids_mono (st : ProviderState) (parsed : Json) (x : String)
    (hx : x ∈ st.emittedTextToolCallIds) :
    x ∈ (processDelta st parsed).st.emittedTextToolCallIds := by
  unfold processDelta
  split
  · dsimp only
    repeat' first
      | rw [flushToolCallBuffers_ids]
      | rw [fragmentLoop_ids]
      | split
    all_goals first
      | exact hx
      | exact processTextContent_ids_mono _ _ _ hx
  · exact hx

theorem processLine_ids_mono (st : ProviderState) (line : List Char) (x : String)
    (hx : x ∈ st.emittedTextToolCallIds) :
    x ∈ (processLine st line).1.emittedTextToolCallIds := by
  unfold processLine
  split
  · exact hx
  · dsimp only
    split
    · dsimp only
      refine flushActiveTextToolCall_ids_mono _ _ ?_
      rw [flushToolCallBuffers_ids]
      exact hx
    · split
      · exact hx
      · dsimp only
        exact processDelta_ids_mono _ _ _ hx

theorem processLines_ids_mono (lines : List (List Char)) :
    ∀ st x, x ∈ st.emittedTextToolCallIds →
      x ∈ (processLines st lines).1.emittedTextToolCallIds := by
  induction lines with
  | nil => intro st x hx; exact hx
  | cons l rest ih =>
    intro st x hx
    simp only [processLines]
    exact ih _ _ (processLine_ids_mono _ _ _ hx)

theorem processChunks_ids_mono (chunks : List (List Char)) :
    ∀ lineBuf st x, x ∈ st.emittedTextToolCallIds →
      x ∈ (processChunks lineBuf st chunks).2.1.emittedTextToolCallIds := by
  induction chunks with
  | nil => intro lineBuf st x hx; exact hx
  | cons c rest ih =>
    intro lineBuf st x hx
    simp only [processChunks, processChunk]
    exact ih _ _ _ (processLines_ids_mono _ _ _ hx)

/-- C4 (amended).  Whenever stream processing ends — normal completion,
cancellation (the fold over any prefix of the chunks), or after a
swallowed delta error — the `finally` cleanup clears the tool-call
buffers, the completed-index set, both text flags, the inline parser
carry, the active inline call and the content-key dedup ledger, but NOT
the identity-key dedup ledger `_emittedTextToolCallIds`, which survives
finalization and is only discarded by the reset at the start of the next
request. -/
theorem claim4_finalize_spares_identity_ledger (st : ProviderState)
    (chunks : List (List Char)) :
    (processStreamingResponse st chunks).1.toolCallBuffers = [] ∧
    (processStreamingResponse st chunks).1.completedToolCallIndices = ∅ ∧
    (processStreamingResponse st chunks).1.hasEmittedAssistantText = false ∧
    (processStreamingResponse st chunks).1.emittedBeginToolCallsHint = false ∧
    (processStreamingResponse st chunks).1.textToolParserBuffer = [] ∧
    (processStreamingResponse st chunks).1.textToolActive = none ∧
    (processStreamingResponse st chunks).1.emittedTextToolCallKeys = ∅ ∧
    st.emittedTextToolCallIds ⊆ (processStreamingResponse st chunks).1.emittedTextToolCallIds ∧
    resetPerRequestState (processStreamingResponse st chunks).1 = initState :=
  ⟨rfl, rfl, rfl, rfl, rfl, rfl, rfl,
   fun x hx => processChunks_ids_mono chunks [] st x hx, rfl⟩

/-- One stream chunk carrying a complete inline-encoded tool call. -/
def c4Chunk : List Char :=
  ("data: \x7b\"choices\":[\x7b\"delta\":\x7b\"content\":\"<|tool_call_begin|>f:0" ++
   "<|tool_call_argument_begin|>\x7b\x7d<|tool_call_end|>\"\x7d\x7d]\x7d\n").data

set_option maxRecDepth 8000 in
/-- C4 counterexample.  After this stream is fully processed and control
returns (finalization included), the identity-key dedup ledger still
holds the emitted call's key: the finalization step does not clear every
piece of per-stream state. -/
theorem claim4_counterexample_ids_survive :
    (processStreamingResponse initState [c4Chunk]).1.emittedTextToolCallIds ≠ ∅ := by
  decide

/-! ## Claim 3: chunk-boundary behaviour -/

/-- Framing a concatenation: the complete lines of `x ++ y` are those of
`x` followed by those of `x`'s leftover re-framed with `y`, and the
leftovers agree — the algebra behind the line framer's carry. -/
theorem frame_append (x : List Char) :
    ∀ y, frame (x ++ y) =
      ((frame x).1 ++ (frame ((frame x).2 ++ y)).1, (frame ((frame x).2 ++ y)).2) := by
  induction x with
  | nil =>
    intro y
    simp [frame]
  | cons c t ih =>
    intro y
    simp only [List.cons_append, frame, List.append_eq]
    rw [ih y]
    by_cases hc : c = '\n'
    · simp [hc, frame]
    · simp only [if_neg hc]
      rcases h1 : (frame t).1 with _ | ⟨l, ls⟩
      · simp only [h1, List.nil_append]
        rcases h2 : (frame ((frame t).2 ++ y)).1 with _ | ⟨m, ms⟩
        · simp [frame, hc, h2]
        · simp [frame, hc, h2]
      · simp [h1]

/-- Processing a concatenated line batch is processing the two batches
in sequence. -/
theorem processLines_append (l1 : List (List Char)) :
    ∀ l2 st, processLines st (l1 ++ l2) =
      ((processLines (processLines st l1).1 l2).1,
       (processLines st l1).2 ++ (processLines (processLines st l1).1 l2).2) := by
  induction l1 with
  | nil =>
    intro l2 st
    simp [processLines]
  | cons l rest ih =>
    intro l2 st
    simp only [List.cons_append, processLines, List.append_eq]
    rw [ih l2 (processLine st l).1]
    simp [List.append_assoc]

/-- The read loop sees exactly the same lines, in the same order,
whether a chunk arrives whole or split at any offset: delivering
`a ++ b` as one read or as two produces identical leftover, state and
part sequence. -/
theorem processChunks_split (lineBuf : List Char) (st : ProviderState) (a b : List Char) :
    processChunks lineBuf st [a ++ b] = processChunks lineBuf st [a, b] := by
  simp only [processChunks, processChunk]
  rw [← List.append_assoc lineBuf a b, frame_append (lineBuf ++ a) b]
  rw [processLines_append]
  simp [List.append_assoc]

theorem consPrefix_head {c d : Char} {pat l : List Char}
    (h : (d :: pat).isPrefixOf (c :: l) = true) : d = c := by
  simp only [List.isPrefixOf, Bool.and_eq_true, beq_iff_eq] at h
  exact h.1

theorem indexOfSub_begin_none {data : List Char} (h : ∀ c ∈ data, c ≠ '<') :
    ∀ i, indexOfSub data beginTok i = none := by
  induction data with
  | nil => intro i; rfl
  | cons c t ih =>
    intro i
    have hc : c ≠ '<' := h c (List.mem_cons_self _ _)
    rw [indexOfSub]
    rw [if_neg (fun hcon : beginTok.isPrefixOf (c :: t) = true => by
      rw [show beginTok = '<' :: "|tool_call_begin|>".data from rfl] at hcon
      exact hc (consPrefix_head hcon).symm)]
    exact ih (fun d hd => h d (List.mem_cons_of_mem _ hd)) (i + 1)

theorem carrySuffixScan_clean {data : List Char} (h : ∀ c ∈ data, c ≠ '<') :
    ∀ k, carrySuffixScan k data = 0 := by
  intro k
  induction k with
  | zero => rfl
  | succ n ihk =>
    rw [carrySuffixScan]
    rw [if_neg (fun hcon : (beginTok.take (n + 1)).isSuffixOf data = true => by
      rw [show beginTok = '<' :: "|tool_call_begin|>".data from rfl,
        List.take_succ_cons] at hcon
      rcases List.isSuffixOf_iff_suffix.mp hcon with ⟨pre, hpre⟩
      have hm : '<' ∈ data := by
        rw [← hpre]
        exact List.mem_append_right _ (List.mem_cons_self _ _)
      exact h '<' hm rfl)]
    exact ihk

theorem isSectionToken_shape {l : List Char} (h : isSectionToken l = true) :
    ∃ r, l = '<' :: r := by
  unfold isSectionToken at h
  split at h
  · exact ⟨_, rfl⟩
  · exact absurd h (by simp)

theorem sectionMatchAt_none {c : Char} {t : List Char} (hc : c ≠ '<') :
    sectionMatchAt (c :: t) = none := by
  unfold sectionMatchAt
  rw [List.find?_eq_none]
  intro n _
  simp only [Bool.not_eq_true]
  by_contra hcon
  rw [Bool.not_eq_false] at hcon
  rcases isSectionToken_shape hcon with ⟨r, hr⟩
  cases n with
  | zero => simp at hr
  | succ m =>
    rw [List.take_succ_cons, List.cons.injEq] at hr
    exact hc hr.1

theorem stripSectionPass_clean (fuel : Nat) :
    ∀ l, (∀ c ∈ l, c ≠ '<') → stripSectionPass fuel l = l := by
  induction fuel with
  | zero => intro l _; rfl
  | succ n ih =>
    intro l h
    rcases l with _ | ⟨c, t⟩
    · rfl
    · rw [stripSectionPass, sectionMatchAt_none (h c (List.mem_cons_self _ _))]
      rw [ih t (fun d hd => h d (List.mem_cons_of_mem _ hd))]

theorem callTokenAt_clean {c : Char} {t : List Char} (hc : c ≠ '<') :
    callTokenAt (c :: t) = none := by
  unfold callTokenAt
  rw [if_neg (fun hcon : argBeginTok.isPrefixOf (c :: t) = true => by
      rw [show argBeginTok = '<' :: "|tool_call_argument_begin|>".data from rfl] at hcon
      exact hc (consPrefix_head hcon).symm),
    if_neg (fun hcon : ("<|tool_call_argument_end|>".data).isPrefixOf (c :: t) = true => by
      rw [show "<|tool_call_argument_end|>".data
          = '<' :: "|tool_call_argument_end|>".data from rfl] at hcon
      exact hc (consPrefix_head hcon).symm),
    if_neg (fun hcon : beginTok.isPrefixOf (c :: t) = true => by
      rw [show beginTok = '<' :: "|tool_call_begin|>".data from rfl] at hcon
      exact hc (consPrefix_head hcon).symm),
    if_neg (fun hcon : endTok.isPrefixOf (c :: t) = true => by
      rw [show endTok = '<' :: "|tool_call_end|>".data from rfl] at hcon
      exact hc (consPrefix_head hcon).symm)]

theorem stripCallPass_clean (fuel : Nat) :
    ∀ l, (∀ c ∈ l, c ≠ '<') → stripCallPass fuel l = l := by
  induction fuel with
  | zero => intro l _; rfl
  | succ n ih =>
    intro l h
    rcases l with _ | ⟨c, t⟩
    · rfl
    · rw [stripCallPass, callTokenAt_clean (h c (List.mem_cons_self _ _))]
      rw [ih t (fun d hd => h d (List.mem_cons_of_mem _ hd))]

theorem stripControlTokens_clean {l : List Char} (h : ∀ c ∈ l, c ≠ '<') :
    stripControlTokens l = l := by
  unfold stripControlTokens
  rw [stripSectionPass_clean _ l h, stripCallPass_clean _ l h]

/-- Writing back the carry value a state already holds changes nothing. -/
theorem carry_writeback_eq (st : ProviderState) {l : List Char}
    (h : st.textToolParserBuffer = l) :
    { st with textToolParserBuffer := l } = st := by
  cases st
  cases h
  rfl

/-- On marker-free content (no `<` anywhere) and a clean tokenizer state,
`processTextContent` is plain text passthrough: the state is unchanged
and the whole input is reported as one text part. -/
theorem processTextContent_clean (st : ProviderState) (s : List Char)
    (hact : st.textToolActive = none) (hbuf : st.textToolParserBuffer = [])
    (hclean : ∀ c ∈ s, c ≠ '<') :
    (processTextContent st s).st = st ∧
    (processTextContent st s).parts
      = if s = [] then [] else [ResponsePart.text (String.mk s)] := by
  have hdata : st.textToolParserBuffer ++ s = s := by rw [hbuf]; rfl
  unfold processTextContent
  rw [hdata]
  rcases s with _ | ⟨c, t⟩
  · simp only [textLoop]
    exact ⟨carry_writeback_eq st hbuf, by simp⟩
  · have hne : (c :: t) ≠ [] := List.cons_ne_nil _ _
    have hidx : indexOf (c :: t) beginTok = none := indexOfSub_begin_none hclean 0
    have hk : carrySuffixLen (c :: t) = 0 := carrySuffixScan_clean hclean _
    simp only [textLoop, if_neg hne, hact, hidx, hk, gt_iff_lt, Nat.lt_irrefl, if_false,
      List.nil_append, stripControlTokens_clean hclean]
    refine ⟨?_, by simp [hne]⟩
    have : ({ st with textToolParserBuffer := [], textToolActive := none } : ProviderState)
        = st := by
      cases st
      cases hbuf
      cases hact
      rfl
    exact this

/-- C3 (amended).  Chunk-boundary invariance holds in full for the
newline line framer: a byte chunk delivered whole or split at any offset
yields the same leftover, the same state and the same part sequence.
For the inline control-token tokenizer it survives only in weakened
form: on content free of the marker character `<` (so no sentinel, no
sentinel prefix and nothing strippable), processing the two halves from
a clean tokenizer state reaches the same state as processing the whole,
emits the same visible text up to concatenation of adjacent text parts,
and emits no tool calls either way.  (On general content the original
claim fails — see the counterexample.) -/
theorem claim3_framer_invariant_tokenizer_weakened :
    (∀ lineBuf st a b, processChunks lineBuf st [a ++ b] = processChunks lineBuf st [a, b]) ∧
    (∀ st s i, st.textToolActive = none → st.textToolParserBuffer = [] →
       (∀ c ∈ s, c ≠ '<') →
       (processTextContent (processTextContent st (s.take i)).st (s.drop i)).st
           = (processTextContent st s).st ∧
       textConcat (processTextContent st (s.take i)).parts ++
           textConcat (processTextContent (processTextContent st (s.take i)).st
             (s.drop i)).parts
         = textConcat (processTextContent st s).parts ∧
       toolCallCount (processTextContent st s).parts = 0 ∧
       toolCallCount ((processTextContent st (s.take i)).parts ++
           (processTextContent (processTextContent st (s.take i)).st (s.drop i)).parts)
         = 0) := by
  refine ⟨processChunks_split, ?_⟩
  intro st s i hact hbuf hclean
  have h1 := processTextContent_clean st (s.take i) hact hbuf
    (fun c hc => hclean c (List.take_subset _ _ hc))
  have h3 := processTextContent_clean st s hact hbuf hclean
  rw [h1.1]
  have h2 := processTextContent_clean st (s.drop i) hact hbuf
    (fun c hc => hclean c (List.drop_subset _ _ hc))
  refine ⟨by rw [h2.1, h3.1], ?_, ?_, ?_⟩
  · rw [h1.2, h2.2, h3.2]
    by_cases hs : s = []
    · subst hs
      simp [textConcat]
    · rw [if_neg hs]
      by_cases hti : s.take i = []
      · rcases (List.take_eq_nil_iff).mp hti with h0 | h0
        · subst h0
          simp only [hti, if_pos rfl, List.drop_zero, if_neg hs, textConcat]
          rfl
        · exact absurd h0 hs
      · by_cases hdi : s.drop i = []
        · have hts : s.take i = s := by
            have hle : s.length ≤ i := by
              rw [List.drop_eq_nil_iff] at hdi
              exact hdi
            exact List.take_of_length_le hle
          rw [if_neg hti, if_pos hdi, hts]
          show String.mk (s ++ []) ++ String.mk [] = String.mk (s ++ [])
          exact congrArg String.mk (by simp)
        · rw [if_neg hti, if_neg hdi]
          show String.mk ((s.take i ++ []) ++ (s.drop i ++ [])) = String.mk (s ++ [])
          exact congrArg String.mk (by simp)
  · rw [h3.2]
    split <;> simp [toolCallCount, isToolCallPart]
  · rw [h1.2, h2.2]
    split <;> split <;> simp [toolCallCount, isToolCallPart]

/-- C3 counterexample.  The content `"a<b"`, split after `"a<"`, does
not reproduce the whole-delivery output: whole delivery emits the text
`"a<b"`, split delivery emits `"a"` then `"b"` — the `<` is lost, since
the carry written by the partial-marker branch is overwritten by the
loop epilogue — so neither the part sequences nor even the concatenated
visible text agree. -/
theorem claim3_counterexample_split_loses_marker :
    (processTextContent initState "a<b".data).parts = [ResponsePart.text "a<b"] ∧
    (processTextContent initState ("a<b".data.take 2)).parts = [ResponsePart.text "a"] ∧
    (processTextContent (processTextContent initState ("a<b".data.take 2)).st
        ("a<b".data.drop 2)).parts = [ResponsePart.text "b"] ∧
    textConcat ((processTextContent initState ("a<b".data.take 2)).parts ++
        (processTextContent (processTextContent initState ("a<b".data.take 2)).st
          ("a<b".data.drop 2)).parts)
      ≠ textConcat (processTextContent initState "a<b".data).parts ∧
    ((processTextContent initState ("a<b".data.take 2)).parts ++
        (processTextContent (processTextContent initState ("a<b".data.take 2)).st
          ("a<b".data.drop 2)).parts)
      ≠ (processTextContent initState "a<b".data).parts := by
  refine ⟨rfl, rfl, rfl, by decide, ?_⟩
  intro hcon
  exact absurd (congrArg textConcat hcon) (by decide)

theorem claim3_witness :
    (processTextContent (processTextContent initState ("ab".data.take 1)).st
        ("ab".data.drop 1)).st = (processTextContent initState "ab".data).st ∧
    textConcat (processTextContent initState ("ab".data.take 1)).parts ++
        textConcat (processTextContent (processTextContent initState ("ab".data.take 1)).st
          ("ab".data.drop 1)).parts
      = textConcat (processTextContent initState "ab".data).parts ∧
    toolCallCount (processTextContent initState "ab".data).parts = 0 ∧
    toolCallCount ((processTextContent initState ("ab".data.take 1)).parts ++
        (processTextContent (processTextContent initState ("ab".data.take 1)).st
          ("ab".data.drop 1)).parts) = 0 :=
  claim3_framer_invariant_tokenizer_weakened.2 initState "ab".data 1 rfl rfl (by decide)
